import Mathlib

/-!
# Verification of FetchClient's resilience core

A shallow embedding, in Lean 4, of the algorithmic core of the FetchClient
repository: the tagged response cache (`FetchClientCache`), the per-group
circuit breaker state machine (`CircuitBreaker`), the circuit breaker
middleware (`CircuitBreakerMiddleware`) and the retry middleware
(`RetryMiddleware`).

JavaScript `Map` and `Set` objects are embedded as association lists
(`List (String × β)` resp. `List String`).  `Map.set` is modelled as
delete-then-append; every observation made by the code goes through
`Map.get` / membership, whose behaviour this preserves exactly.  No claim
below depends on the iteration order of a `Map` (deletions performed while
iterating a JS `Map`/`Set` only ever remove the element currently visited,
which is equivalent to iterating a snapshot).  Timestamps (`Date.now()`)
are embedded as `Int` milliseconds and are passed explicitly to each
operation; thresholds and counters are `Nat`.
-/

set_option maxHeartbeats 1000000

namespace FC

/-! ## JS `Map` / `Set` embedding -/

def mapGet {β : Type} : List (String × β) → String → Option β
  | [], _ => none
  | p :: m, k => if p.1 = k then some p.2 else mapGet m k

def mapDelete {β : Type} : List (String × β) → String → List (String × β)
  | [], _ => []
  | p :: m, k => if p.1 = k then mapDelete m k else p :: mapDelete m k

/-- `Map.set`: observable-equivalent to JS `Map.prototype.set`. -/
def mapSet {β : Type} (m : List (String × β)) (k : String) (v : β) :
    List (String × β) :=
  mapDelete m k ++ [(k, v)]

/-- `Set.add`: appends if absent. -/
def setAdd (s : List String) (h : String) : List String :=
  if h ∈ s then s else s ++ [h]

/-- `Set.delete`. -/
def setRemove : List String → String → List String
  | [], _ => []
  | x :: s, h => if x = h then setRemove s h else x :: setRemove s h

theorem mapGet_append {β : Type} (l₁ l₂ : List (String × β)) (k : String) :
    mapGet (l₁ ++ l₂) k =
      match mapGet l₁ k with
      | some v => some v
      | none => mapGet l₂ k := by
  induction l₁ with
  | nil => simp [mapGet]
  | cons p m ih =>
    by_cases h : p.1 = k <;> simp [mapGet, h, ih]

theorem mapGet_mapDelete {β : Type} (m : List (String × β)) (k k' : String) :
    mapGet (mapDelete m k) k' = if k' = k then none else mapGet m k' := by
  induction m with
  | nil => simp [mapGet, mapDelete]
  | cons p m ih =>
    by_cases h' : k' = k
    · subst h'
      by_cases h : p.1 = k' <;> simp [mapDelete, mapGet, h, ih]
    · have hk : k ≠ k' := fun he => h' he.symm
      by_cases h : p.1 = k
      · have hp : p.1 ≠ k' := by rw [h]; exact hk
        simp [mapDelete, mapGet, h, h', hp, hk, ih]
      · by_cases hp : p.1 = k'
        · simp [mapDelete, mapGet, h, h', hp, hk, ih]
        · simp [mapDelete, mapGet, h, h', hp, hk, ih]

theorem mapGet_mapSet {β : Type} (m : List (String × β)) (k k' : String) (v : β) :
    mapGet (mapSet m k v) k' = if k' = k then some v else mapGet m k' := by
  unfold mapSet
  rw [mapGet_append, mapGet_mapDelete]
  by_cases h : k' = k
  · simp [mapGet, h]
  · have hk : k ≠ k' := fun he => h he.symm
    simp only [if_neg h]
    cases hg : mapGet m k' <;> simp [mapGet, hk]

theorem mapDelete_sublist {β : Type} (m : List (String × β)) (k : String) :
    (mapDelete m k).Sublist m := by
  induction m with
  | nil => simp [mapDelete]
  | cons p m ih =>
    by_cases h : p.1 = k <;> simp [mapDelete, h]
    · exact ih.cons _
    · exact ih

theorem mem_keys_mapDelete {β : Type} (m : List (String × β)) (k a : String) :
    a ∈ (mapDelete m k).map Prod.fst ↔ a ∈ m.map Prod.fst ∧ a ≠ k := by
  induction m with
  | nil => simp [mapDelete]
  | cons p m ih =>
    by_cases h : p.1 = k
    · simp only [mapDelete, if_pos h, ih, List.map_cons, List.mem_cons]
      constructor
      · rintro ⟨ha, hk⟩; exact ⟨Or.inr ha, hk⟩
      · rintro ⟨(rfl | ha), hk⟩
        · exact absurd h hk
        · exact ⟨ha, hk⟩
    · simp only [mapDelete, if_neg h, List.map_cons, List.mem_cons, ih]
      constructor
      · rintro (rfl | ⟨ha, hk⟩)
        · exact ⟨Or.inl rfl, fun he => h he⟩
        · exact ⟨Or.inr ha, hk⟩
      · rintro ⟨(rfl | ha), hk⟩
        · exact Or.inl rfl
        · exact Or.inr ⟨ha, hk⟩

theorem nodupKeys_mapDelete {β : Type} (m : List (String × β)) (k : String)
    (h : (m.map Prod.fst).Nodup) : ((mapDelete m k).map Prod.fst).Nodup :=
  h.sublist ((mapDelete_sublist m k).map Prod.fst)

theorem nodupKeys_mapSet {β : Type} (m : List (String × β)) (k : String) (v : β)
    (h : (m.map Prod.fst).Nodup) : ((mapSet m k v).map Prod.fst).Nodup := by
  unfold mapSet
  rw [List.map_append, List.nodup_append]
  refine ⟨nodupKeys_mapDelete m k h, by simp, ?_⟩
  intro a ha hb
  simp only [List.map_cons, List.map_nil, List.mem_singleton] at hb
  exact ((mem_keys_mapDelete m k a).1 ha).2 hb

theorem mem_of_mapGet_eq_some {β : Type} {m : List (String × β)} {k : String}
    {v : β} (h : mapGet m k = some v) : (k, v) ∈ m := by
  induction m with
  | nil => simp [mapGet] at h
  | cons p m ih =>
    obtain ⟨a, b⟩ := p
    by_cases hp : a = k
    · subst hp
      simp [mapGet] at h
      subst h
      exact List.mem_cons_self _ _
    · simp [mapGet, hp] at h
      exact List.mem_cons_of_mem _ (ih h)

theorem mapGet_eq_some_of_mem {β : Type} {m : List (String × β)} {k : String}
    {v : β} (hnd : (m.map Prod.fst).Nodup) (h : (k, v) ∈ m) :
    mapGet m k = some v := by
  induction m with
  | nil => simp at h
  | cons p m ih =>
    rcases List.mem_cons.1 h with rfl | hm
    · simp [mapGet]
    · have hp : p.1 ≠ k := by
        intro he
        have : k ∈ m.map Prod.fst := List.mem_map.2 ⟨(k, v), hm, rfl⟩
        rw [List.map_cons, List.nodup_cons, he] at hnd
        exact hnd.1 this
      simp only [mapGet, if_neg hp]
      exact ih (by
        rw [List.map_cons, List.nodup_cons] at hnd
        exact hnd.2) hm

theorem mem_setAdd (s : List String) (h x : String) :
    x ∈ setAdd s h ↔ x ∈ s ∨ x = h := by
  unfold setAdd
  by_cases hh : h ∈ s
  · rw [if_pos hh]
    constructor
    · exact Or.inl
    · rintro (hx | rfl)
      · exact hx
      · exact hh
  · rw [if_neg hh]
    simp [List.mem_append]

theorem nodup_setAdd (s : List String) (h : String) (hnd : s.Nodup) :
    (setAdd s h).Nodup := by
  unfold setAdd
  by_cases hh : h ∈ s <;> simp [hh, List.nodup_append, hnd]

theorem setAdd_ne_nil (s : List String) (h : String) : setAdd s h ≠ [] := by
  unfold setAdd
  by_cases hh : h ∈ s <;> simp [hh]
  exact List.ne_nil_of_mem hh

theorem mem_setRemove (s : List String) (h x : String) :
    x ∈ setRemove s h ↔ x ∈ s ∧ x ≠ h := by
  induction s with
  | nil => simp [setRemove]
  | cons y s ih =>
    by_cases hy : y = h
    · rw [show setRemove (y :: s) h = setRemove s h by simp [setRemove, hy], ih]
      subst hy
      constructor
      · rintro ⟨hx, hne⟩; exact ⟨List.mem_cons_of_mem _ hx, hne⟩
      · rintro ⟨hx, hne⟩
        rcases List.mem_cons.1 hx with rfl | hx
        · exact absurd rfl hne
        · exact ⟨hx, hne⟩
    · rw [show setRemove (y :: s) h = y :: setRemove s h by simp [setRemove, hy]]
      constructor
      · intro hx
        rcases List.mem_cons.1 hx with rfl | hx
        · exact ⟨List.mem_cons_self _ _, hy⟩
        · obtain ⟨h1, h2⟩ := ih.1 hx
          exact ⟨List.mem_cons_of_mem _ h1, h2⟩
      · rintro ⟨hx, hne⟩
        rcases List.mem_cons.1 hx with rfl | hx
        · exact List.mem_cons_self _ _
        · exact List.mem_cons_of_mem _ (ih.2 ⟨hx, hne⟩)

theorem setRemove_sublist (s : List String) (h : String) :
    (setRemove s h).Sublist s := by
  induction s with
  | nil => simp [setRemove]
  | cons y s ih =>
    by_cases hy : y = h <;> simp [setRemove, hy]
    · exact ih.cons _
    · exact ih

theorem nodup_setRemove (s : List String) (h : String) (hnd : s.Nodup) :
    (setRemove s h).Nodup :=
  hnd.sublist (setRemove_sublist s h)

theorem setRemove_idem (s : List String) (h : String) :
    setRemove (setRemove s h) h = setRemove s h := by
  induction s with
  | nil => simp [setRemove]
  | cons y s ih =>
    by_cases hy : y = h <;> simp [setRemove, hy, ih]

/-! ## Circuit breaker (`CircuitBreaker` class)

One bucket per group; the group lookup itself (`getGroupFunc`) is a pure
string function and is not where the claims live, so the embedding works
on the bucket of a fixed group together with that group's effective
options (`#getOptions`). -/

inductive CircuitState where
  | CLOSED
  | OPEN
  | HALF_OPEN
deriving DecidableEq, Repr

/-- Effective per-group options (`#getOptions` result). -/
structure GroupCBOptions where
  failureThreshold : Nat
  failureWindowMs : Int
  openDurationMs : Int
  successThreshold : Nat
  halfOpenMaxAttempts : Nat
deriving DecidableEq, Repr

/-- `CircuitBreakerBucket`. -/
structure Bucket where
  state : CircuitState
  failures : List Int
  successCount : Nat
  openedAt : Option Int
  halfOpenAttempts : Nat
deriving DecidableEq, Repr

/-- `#getBucket` for a fresh group. -/
def initialBucket : Bucket :=
  { state := .CLOSED
    failures := []
    successCount := 0
    openedAt := none
    halfOpenAttempts := 0 }

/-- `#transitionTo` (state-change callbacks have no effect on the bucket and
are omitted). -/
def transitionTo (b : Bucket) (newState : CircuitState) (now : Int) : Bucket :=
  if b.state = newState then b
  else
    match newState with
    | .OPEN =>
      { b with
        state := .OPEN
        openedAt := some now
        successCount := 0
        halfOpenAttempts := 0 }
    | .HALF_OPEN =>
      { b with state := .HALF_OPEN, successCount := 0, halfOpenAttempts := 0 }
    | .CLOSED =>
      { b with
        state := .CLOSED
        failures := []
        openedAt := none
        successCount := 0
        halfOpenAttempts := 0 }

/-- `#cleanupFailures`: keep timestamps `t` with `t > now - windowMs`. -/
def cleanupFailures (failures : List Int) (now windowMs : Int) : List Int :=
  failures.filter (fun t => decide (now - windowMs < t))

/-- `isAllowed` for one group's bucket: returns the boolean answer and the
mutated bucket. -/
def isAllowed (b : Bucket) (o : GroupCBOptions) (now : Int) : Bool × Bucket :=
  match b.state with
  | .CLOSED => (true, b)
  | .OPEN =>
    if now - b.openedAt.getD 0 ≥ o.openDurationMs then
      let b1 := transitionTo b .HALF_OPEN now
      if b1.halfOpenAttempts < o.halfOpenMaxAttempts then
        (true, { b1 with halfOpenAttempts := b1.halfOpenAttempts + 1 })
      else (false, b1)
    else (false, b)
  | .HALF_OPEN =>
    if b.halfOpenAttempts < o.halfOpenMaxAttempts then
      (true, { b with halfOpenAttempts := b.halfOpenAttempts + 1 })
    else (false, b)

/-- `recordSuccess` (`Math.max(0, x - 1)` is `Nat` subtraction). -/
def recordSuccess (b : Bucket) (o : GroupCBOptions) (now : Int) : Bucket :=
  match b.state with
  | .CLOSED => b
  | .HALF_OPEN =>
    let b1 := { b with
                halfOpenAttempts := b.halfOpenAttempts - 1
                successCount := b.successCount + 1 }
    if b1.successCount ≥ o.successThreshold then transitionTo b1 .CLOSED now
    else b1
  | .OPEN => b

/-- `recordFailure`. -/
def recordFailure (b : Bucket) (o : GroupCBOptions) (now : Int) : Bucket :=
  match b.state with
  | .CLOSED =>
    let fs := cleanupFailures b.failures now o.failureWindowMs ++ [now]
    let b1 := { b with failures := fs }
    if fs.length ≥ o.failureThreshold then transitionTo b1 .OPEN now else b1
  | .HALF_OPEN =>
    transitionTo { b with halfOpenAttempts := b.halfOpenAttempts - 1 } .OPEN now
  | .OPEN => b

/-- `getState`: a read-only query; it reports the virtual HALF_OPEN but the
source performs no assignment to the bucket. -/
def getState (b : Bucket) (o : GroupCBOptions) (now : Int) : CircuitState :=
  if b.state = .OPEN ∧ now - b.openedAt.getD 0 ≥ o.openDurationMs then
    .HALF_OPEN
  else b.state

/-- `getTimeSinceOpen`. -/
def getTimeSinceOpen (b : Bucket) (now : Int) : Option Int :=
  match b.openedAt with
  | none => none
  | some t => some (now - t)

/-- A sequence of `recordFailure` calls at the given times. -/
def recordFailures (b : Bucket) (o : GroupCBOptions) (ts : List Int) : Bucket :=
  ts.foldl (fun b t => recordFailure b o t) b

/-- A sequence of `recordSuccess` calls at the given times. -/
def recordSuccesses (b : Bucket) (o : GroupCBOptions) (ts : List Int) : Bucket :=
  ts.foldl (fun b t => recordSuccess b o t) b

def closedBucket (fs : List Int) : Bucket :=
  { state := .CLOSED
    failures := fs
    successCount := 0
    openedAt := none
    halfOpenAttempts := 0 }

theorem recordFailures_opens (o : GroupCBOptions) :
    ∀ (rest acc : List Int) (l : Int),
      acc.length + rest.length + 1 = o.failureThreshold →
      (∀ y ∈ acc ++ rest ++ [l], l - o.failureWindowMs < y ∧ y ≤ l) →
      recordFailures (closedBucket acc) o (rest ++ [l]) =
        { state := .OPEN
          failures := acc ++ rest ++ [l]
          successCount := 0
          openedAt := some l
          halfOpenAttempts := 0 } := by
  intro rest
  induction rest with
  | nil =>
    intro acc l hlen hwin
    simp only [List.nil_append, List.append_nil] at hwin ⊢
    show recordFailure (closedBucket acc) o l = _
    have hclean : cleanupFailures acc l o.failureWindowMs = acc := by
      unfold cleanupFailures
      rw [List.filter_eq_self]
      intro y hy
      exact decide_eq_true (hwin y (by simp [hy])).1
    simp only [recordFailure, closedBucket, hclean]
    have hlen2 : (acc ++ [l]).length = o.failureThreshold := by
      simp at hlen ⊢; omega
    rw [if_pos (le_of_eq hlen2.symm)]
    simp [transitionTo]
  | cons t rest ih =>
    intro acc l hlen hwin
    have hmem : ∀ y ∈ (acc ++ [t]) ++ rest ++ [l],
        l - o.failureWindowMs < y ∧ y ≤ l := by
      intro y hy
      apply hwin
      simp only [List.append_assoc, List.mem_append, List.mem_cons,
        List.mem_singleton] at hy ⊢
      tauto
    have ht : l - o.failureWindowMs < t ∧ t ≤ l := by
      apply hwin; simp
    have hclean : cleanupFailures acc t o.failureWindowMs = acc := by
      unfold cleanupFailures
      rw [List.filter_eq_self]
      intro y hy
      have hw := hwin y (by simp [hy])
      exact decide_eq_true (by omega)
    have hstep : recordFailure (closedBucket acc) o t =
        closedBucket (acc ++ [t]) := by
      simp only [recordFailure, closedBucket, hclean]
      rw [if_neg]
      simp at hlen ⊢
      omega
    show recordFailures (closedBucket acc) o (t :: (rest ++ [l])) = _
    unfold recordFailures
    rw [List.foldl_cons]
    have := ih (acc ++ [t]) l (by simp at hlen ⊢; omega) hmem
    unfold recordFailures at this
    rw [hstep, this]
    simp

/-- C1: starting CLOSED, `failureThreshold` failures recorded at times all
lying within one trailing `failureWindowMs` of the last one transition the
bucket to OPEN (none of them being pruned), and every `isAllowed` call
strictly before `openDurationMs` has elapsed returns `false` and leaves the
bucket unchanged; moreover each `recordFailure` in CLOSED prunes
out-of-window failures before counting. -/
theorem recordFailure_threshold_opens_and_blocks (o : GroupCBOptions)
    (ts : List Int) (l : Int)
    (hthr : o.failureThreshold = ts.length + 1)
    (hwin : ∀ y ∈ ts ++ [l], l - o.failureWindowMs < y ∧ y ≤ l) :
    recordFailures initialBucket o (ts ++ [l]) =
      { state := .OPEN
        failures := ts ++ [l]
        successCount := 0
        openedAt := some l
        halfOpenAttempts := 0 } ∧
    (∀ n, n - l < o.openDurationMs →
      isAllowed (recordFailures initialBucket o (ts ++ [l])) o n =
        (false, recordFailures initialBucket o (ts ++ [l]))) ∧
    (∀ b' n, b'.state = .CLOSED →
      (recordFailure b' o n).failures =
        cleanupFailures b'.failures n o.failureWindowMs ++ [n]) := by
  have hmain := recordFailures_opens o ts [] l (by simp; omega)
    (by simpa using hwin)
  simp only [List.nil_append] at hmain
  have hinit : initialBucket = closedBucket [] := rfl
  rw [hinit, hmain]
  refine ⟨rfl, ?_, ?_⟩
  · intro n hn
    simp only [isAllowed, Option.getD_some]
    rw [if_neg (by omega)]
  · intro b' n hb'
    simp only [recordFailure, hb']
    split
    · simp [transitionTo, hb']
    · simp

/-- C1 witness. -/
theorem recordFailure_threshold_opens_and_blocks_witness :
    recordFailures initialBucket
        { failureThreshold := 2, failureWindowMs := 10, openDurationMs := 100,
          successThreshold := 2, halfOpenMaxAttempts := 1 } ([0] ++ [5]) =
      { state := .OPEN
        failures := [0] ++ [5]
        successCount := 0
        openedAt := some 5
        halfOpenAttempts := 0 } := by
  exact (recordFailure_threshold_opens_and_blocks
    { failureThreshold := 2, failureWindowMs := 10, openDurationMs := 100,
      successThreshold := 2, halfOpenMaxAttempts := 1 }
    [0] 5 (by decide) (by decide)).1

/-- C2 counterexample: the claim says the state query (`getState`)
"materializes" the OPEN → HALF_OPEN transition, but `getState` performs no
assignment to the bucket.  Concretely: with `successThreshold = 1`, after
the open duration has elapsed `getState` reports HALF_OPEN, yet a
`recordSuccess` immediately afterwards is a no-op (it runs in the OPEN
branch), so the circuit does not close — the stored state was never
HALF_OPEN. -/
theorem getState_does_not_materialize_halfOpen :
    getState
        { state := .OPEN
          failures := [0]
          successCount := 0
          openedAt := some 0
          halfOpenAttempts := 0 }
        { failureThreshold := 1, failureWindowMs := 1000, openDurationMs := 10,
          successThreshold := 1, halfOpenMaxAttempts := 1 } 10 = .HALF_OPEN ∧
    recordSuccess
        { state := .OPEN
          failures := [0]
          successCount := 0
          openedAt := some 0
          halfOpenAttempts := 0 }
        { failureThreshold := 1, failureWindowMs := 1000, openDurationMs := 10,
          successThreshold := 1, halfOpenMaxAttempts := 1 } 10 =
      { state := .OPEN
        failures := [0]
        successCount := 0
        openedAt := some 0
        halfOpenAttempts := 0 } := by
  constructor
  · decide
  · decide

/-- C2 amended: once the elapsed time since opening meets-or-exceeds the
open duration, `getState` *reports* HALF_OPEN (without mutating the stored
state; only `isAllowed` materializes the transition), and `isAllowed`
materializes HALF_OPEN in the returned bucket; while HALF_OPEN, `isAllowed`
grants exactly when the in-flight counter is below `halfOpenMaxAttempts`,
incrementing it on each grant and returning `false` once the cap is
reached. -/
theorem isAllowed_materializes_halfOpen_and_caps_grants
    (o : GroupCBOptions) (b : Bucket) (n : Int) :
    (∀ t, b.state = .OPEN → b.openedAt = some t → n - t ≥ o.openDurationMs →
      getState b o n = .HALF_OPEN ∧
      (isAllowed b o n).2.state = .HALF_OPEN ∧
      (0 < o.halfOpenMaxAttempts →
        isAllowed b o n =
          (true,
            { state := .HALF_OPEN
              failures := b.failures
              successCount := 0
              openedAt := b.openedAt
              halfOpenAttempts := 1 })) ∧
      (o.halfOpenMaxAttempts = 0 →
        isAllowed b o n =
          (false,
            { state := .HALF_OPEN
              failures := b.failures
              successCount := 0
              openedAt := b.openedAt
              halfOpenAttempts := 0 }))) ∧
    (b.state = .HALF_OPEN →
      (b.halfOpenAttempts < o.halfOpenMaxAttempts →
        isAllowed b o n =
          (true, { b with halfOpenAttempts := b.halfOpenAttempts + 1 })) ∧
      (o.halfOpenMaxAttempts ≤ b.halfOpenAttempts →
        isAllowed b o n = (false, b))) := by
  constructor
  · intro t hst hopen hdur
    have htrans : transitionTo b .HALF_OPEN n =
        { state := .HALF_OPEN
          failures := b.failures
          successCount := 0
          openedAt := b.openedAt
          halfOpenAttempts := 0 } := by
      unfold transitionTo
      rw [if_neg (by rw [hst]; intro hcon; cases hcon)]
    have hga : getState b o n = .HALF_OPEN := by
      unfold getState
      rw [if_pos ⟨hst, by rw [hopen]; exact hdur⟩]
    have hia : isAllowed b o n =
        if (transitionTo b .HALF_OPEN n).halfOpenAttempts <
            o.halfOpenMaxAttempts then
          (true, { transitionTo b .HALF_OPEN n with
                   halfOpenAttempts :=
                     (transitionTo b .HALF_OPEN n).halfOpenAttempts + 1 })
        else (false, transitionTo b .HALF_OPEN n) := by
      unfold isAllowed
      rw [hst]
      rw [if_pos (by rw [hopen]; exact hdur)]
    refine ⟨hga, ?_, ?_, ?_⟩
    · rw [hia, htrans]
      by_cases hc : 0 < o.halfOpenMaxAttempts
      · rw [if_pos (by simpa using hc)]
      · rw [if_neg (by simpa using hc)]
    · intro hc
      rw [hia, htrans, if_pos (by simpa using hc)]
    · intro hc
      rw [hia, htrans, if_neg (by simp [hc])]
  · intro hst
    constructor
    · intro hc
      simp only [isAllowed, hst]
      rw [if_pos hc]
    · intro hc
      simp only [isAllowed, hst]
      rw [if_neg (by omega)]

/-- C2 amended witness. -/
theorem isAllowed_materializes_halfOpen_and_caps_grants_witness :
    isAllowed
        { state := .OPEN
          failures := [0]
          successCount := 0
          openedAt := some 0
          halfOpenAttempts := 0 }
        { failureThreshold := 1, failureWindowMs := 1000, openDurationMs := 10,
          successThreshold := 1, halfOpenMaxAttempts := 1 } 10 =
      (true,
        { state := .HALF_OPEN
          failures := [0]
          successCount := 0
          openedAt := some 0
          halfOpenAttempts := 1 }) := by
  exact ((isAllowed_materializes_halfOpen_and_caps_grants
    { failureThreshold := 1, failureWindowMs := 1000, openDurationMs := 10,
      successThreshold := 1, halfOpenMaxAttempts := 1 }
    { state := .OPEN
      failures := [0]
      successCount := 0
      openedAt := some 0
      halfOpenAttempts := 0 } 10).1 0 rfl rfl (by decide)).2.2.1 (by decide)

theorem recordSuccesses_closes (o : GroupCBOptions) :
    ∀ (ts : List Int) (b : Bucket), b.state = .HALF_OPEN → ts ≠ [] →
      b.successCount + ts.length = o.successThreshold →
      recordSuccesses b o ts =
        { state := .CLOSED
          failures := []
          successCount := 0
          openedAt := none
          halfOpenAttempts := 0 } := by
  intro ts
  induction ts with
  | nil => intro b _ hne _; exact absurd rfl hne
  | cons t ts ih =>
    intro b hst hne hlen
    unfold recordSuccesses
    rw [List.foldl_cons]
    have hrec : recordSuccess b o t =
        (if b.successCount + 1 ≥ o.successThreshold then
          transitionTo
            { b with
              halfOpenAttempts := b.halfOpenAttempts - 1
              successCount := b.successCount + 1 } .CLOSED t
        else
          { b with
            halfOpenAttempts := b.halfOpenAttempts - 1
            successCount := b.successCount + 1 }) := by
      unfold recordSuccess
      rw [hst]
    cases ts with
    | nil =>
      simp only [List.length_cons, List.length_nil] at hlen
      have hth : b.successCount + 1 ≥ o.successThreshold := by omega
      rw [hrec, if_pos hth]
      have : transitionTo
          { b with
            halfOpenAttempts := b.halfOpenAttempts - 1
            successCount := b.successCount + 1 } .CLOSED t =
          { state := .CLOSED
            failures := []
            successCount := 0
            openedAt := none
            halfOpenAttempts := 0 } := by
        unfold transitionTo
        rw [if_neg (by simp [hst])]
      simp only [List.foldl_nil]
      exact this
    | cons t2 ts2 =>
      have hth : ¬ b.successCount + 1 ≥ o.successThreshold := by
        simp only [List.length_cons] at hlen
        omega
      rw [hrec, if_neg hth]
      have := ih
        { b with
          halfOpenAttempts := b.halfOpenAttempts - 1
          successCount := b.successCount + 1 }
        (by simp [hst]) (by simp)
        (by simp only [List.length_cons] at hlen ⊢; omega)
      unfold recordSuccesses at this
      exact this

/-- C3: while HALF_OPEN, a single `recordFailure` immediately reopens the
circuit (new `openedAt`, counters reset, failure window untouched), and
`successThreshold` consecutive `recordSuccess` calls starting from a zero
success count transition it to CLOSED with the failure window reset to
empty. -/
theorem halfOpen_failure_reopens_and_successes_close
    (o : GroupCBOptions) (b : Bucket) (hst : b.state = .HALF_OPEN) :
    (∀ n, recordFailure b o n =
      { state := .OPEN
        failures := b.failures
        successCount := 0
        openedAt := some n
        halfOpenAttempts := 0 }) ∧
    (b.successCount = 0 → ∀ ts : List Int, ts ≠ [] →
      ts.length = o.successThreshold →
      recordSuccesses b o ts =
        { state := .CLOSED
          failures := []
          successCount := 0
          openedAt := none
          halfOpenAttempts := 0 }) := by
  constructor
  · intro n
    have h1 : recordFailure b o n =
        transitionTo { b with halfOpenAttempts := b.halfOpenAttempts - 1 }
          .OPEN n := by
      unfold recordFailure
      rw [hst]
    rw [h1]
    unfold transitionTo
    rw [if_neg (by simp [hst])]
  · intro hz ts hne hlen
    exact recordSuccesses_closes o ts b hst hne (by omega)

/-- C3 witness. -/
theorem halfOpen_failure_reopens_and_successes_close_witness :
    recordFailure
        { state := .HALF_OPEN
          failures := [5]
          successCount := 0
          openedAt := some 0
          halfOpenAttempts := 1 }
        { failureThreshold := 3, failureWindowMs := 100, openDurationMs := 50,
          successThreshold := 2, halfOpenMaxAttempts := 1 } 7 =
      { state := .OPEN
        failures := [5]
        successCount := 0
        openedAt := some 7
        halfOpenAttempts := 0 } ∧
    recordSuccesses
        { state := .HALF_OPEN
          failures := [5]
          successCount := 0
          openedAt := some 0
          halfOpenAttempts := 1 }
        { failureThreshold := 3, failureWindowMs := 100, openDurationMs := 50,
          successThreshold := 2, halfOpenMaxAttempts := 1 } [8, 9] =
      { state := .CLOSED
        failures := []
        successCount := 0
        openedAt := none
        halfOpenAttempts := 0 } := by
  have h := halfOpen_failure_reopens_and_successes_close
    { failureThreshold := 3, failureWindowMs := 100, openDurationMs := 50,
      successThreshold := 2, halfOpenMaxAttempts := 1 }
    { state := .HALF_OPEN
      failures := [5]
      successCount := 0
      openedAt := some 0
      halfOpenAttempts := 1 } rfl
  exact ⟨h.1 7, h.2 rfl [8, 9] (by decide) (by decide)⟩

/-! ## Circuit breaker middleware (`CircuitBreakerMiddleware.ts`)

The middleware is embedded as a state-passing function on one group's
bucket.  The downstream chain (`next`) is modelled by its outcome: either
it throws (`Except.error`) or it completes, leaving `ctx.response` either
set or still null.  The synthesized 503 `Response` is modelled by the
fields the claims talk about: status, the `Retry-After` header value and
the problem-details `detail` text. -/

structure MwResponse where
  status : Nat
  retryAfterHeader : Option String
  problemDetail : Option String
deriving DecidableEq, Repr

/-- `CircuitOpenError` (thrown when `throwOnOpen` is set). -/
structure CircuitOpenError where
  group : String
  state : CircuitState
  openedAt : Int
  retryAfter : Nat
  message : String
deriving DecidableEq, Repr

/-- Outcome of one run of the middleware body. -/
structure MwResult where
  response : Option MwResponse
  bucket : Bucket
  nextInvoked : Bool
  thrownError : Option String
  circuitOpenThrown : Option CircuitOpenError
deriving DecidableEq, Repr

/-- `Math.ceil(ms / 1000)` for the non-negative `retryAfterMs`. -/
def ceilSeconds (ms : Int) : Nat := (ms.toNat + 999) / 1000

/-- Default failure classifier: 5xx or 429. -/
def defaultIsFailure (r : MwResponse) : Bool :=
  decide (r.status ≥ 500) || decide (r.status = 429)

/-- The body of `CircuitBreakerMiddleware.middleware()` for one request:
`nowCheck` is the clock when `isAllowed` runs, `nowRecord` the clock when
the post-response record runs. -/
def cbMiddleware (b : Bucket) (o : GroupCBOptions) (mwOpenDurationMs : Int)
    (throwOnOpen : Bool) (errorMessage : Option String) (group : String)
    (isFailureFn : MwResponse → Bool) (nowCheck nowRecord : Int)
    (next : Except String (Option MwResponse)) : MwResult :=
  let ar := isAllowed b o nowCheck
  if ar.1 = false then
    let timeSinceOpen := (getTimeSinceOpen ar.2 nowCheck).getD 0
    let retryAfterMs := max 0 (mwOpenDurationMs - timeSinceOpen)
    let retryAfterSeconds := ceilSeconds retryAfterMs
    if throwOnOpen then
      { response := none
        bucket := ar.2
        nextInvoked := false
        thrownError := none
        circuitOpenThrown := some
          { group := group
            state := getState ar.2 o nowCheck
            openedAt := nowCheck - timeSinceOpen
            retryAfter := retryAfterSeconds
            message := errorMessage.getD
              ("Circuit breaker is open for " ++ group) } }
    else
      { response := some
          { status := 503
            retryAfterHeader := some (toString retryAfterSeconds)
            problemDetail := some (errorMessage.getD
              ("Circuit breaker is open for " ++ group ++
                ". Service may be experiencing issues.")) }
        bucket := ar.2
        nextInvoked := false
        thrownError := none
        circuitOpenThrown := none }
  else
    match next with
    | .error e =>
      { response := none
        bucket := recordFailure ar.2 o nowRecord
        nextInvoked := true
        thrownError := some e
        circuitOpenThrown := none }
    | .ok respOpt =>
      match respOpt with
      | some r =>
        if isFailureFn r then
          { response := some r
            bucket := recordFailure ar.2 o nowRecord
            nextInvoked := true
            thrownError := none
            circuitOpenThrown := none }
        else
          { response := some r
            bucket := recordSuccess ar.2 o nowRecord
            nextInvoked := true
            thrownError := none
            circuitOpenThrown := none }
      | none =>
        { response := none
          bucket := ar.2
          nextInvoked := true
          thrownError := none
          circuitOpenThrown := none }

/-- C6: when the circuit is OPEN and not yet due for HALF_OPEN, the
middleware with `throwOnOpen = false` and the default message denies the
request without invoking the rest of the chain and without throwing, sets
a synthesized response with status 503, a `Retry-After` header equal to
the rounded-up seconds until the next half-open probe, and a problem
detail naming the group, and leaves the bucket — in particular its failure
window — unchanged. -/
theorem cbMiddleware_denial_spec (b : Bucket) (o : GroupCBOptions)
    (group : String) (isFailureFn : MwResponse → Bool) (t nowCheck nowRecord : Int)
    (next : Except String (Option MwResponse))
    (hst : b.state = .OPEN) (hopen : b.openedAt = some t)
    (hdue : nowCheck - t < o.openDurationMs) :
    cbMiddleware b o o.openDurationMs false none group isFailureFn
        nowCheck nowRecord next =
      { response := some
          { status := 503
            retryAfterHeader :=
              some (toString (ceilSeconds (o.openDurationMs - (nowCheck - t))))
            problemDetail := some ("Circuit breaker is open for " ++ group ++
              ". Service may be experiencing issues.") }
        bucket := b
        nextInvoked := false
        thrownError := none
        circuitOpenThrown := none } ∧
    (∃ pre post, ("Circuit breaker is open for " ++ group ++
      ". Service may be experiencing issues.") = pre ++ group ++ post) := by
  have hia : isAllowed b o nowCheck = (false, b) := by
    unfold isAllowed
    rw [hst]
    rw [if_neg (by rw [hopen]; simpa using hdue)]
  have hts : getTimeSinceOpen b nowCheck = some (nowCheck - t) := by
    unfold getTimeSinceOpen
    rw [hopen]
  have hmax : max 0 (o.openDurationMs - (nowCheck - t)) =
      o.openDurationMs - (nowCheck - t) := by omega
  constructor
  · unfold cbMiddleware
    rw [hia]
    simp only [hts, Option.getD_some, hmax, Option.getD_none]
    simp
  · exact ⟨"Circuit breaker is open for ", ". Service may be experiencing issues.", rfl⟩

/-- C6 witness: circuit opened at `t = 0`, duration 30000 ms, checked at
`t = 1000`: Retry-After is `⌈29000 / 1000⌉ = 29` seconds. -/
theorem cbMiddleware_denial_spec_witness :
    cbMiddleware
        { state := .OPEN
          failures := [0]
          successCount := 0
          openedAt := some 0
          halfOpenAttempts := 0 }
        { failureThreshold := 1, failureWindowMs := 1000,
          openDurationMs := 30000, successThreshold := 1,
          halfOpenMaxAttempts := 1 } 30000 false none "global" defaultIsFailure
        1000 1000 (Except.ok none) =
      { response := some
          { status := 503
            retryAfterHeader := some (toString (ceilSeconds (30000 - (1000 - 0))))
            problemDetail := some ("Circuit breaker is open for " ++ "global" ++
              ". Service may be experiencing issues.") }
        bucket :=
          { state := .OPEN
            failures := [0]
            successCount := 0
            openedAt := some 0
            halfOpenAttempts := 0 }
        nextInvoked := false
        thrownError := none
        circuitOpenThrown := none } := by
  exact (cbMiddleware_denial_spec
    { state := .OPEN
      failures := [0]
      successCount := 0
      openedAt := some 0
      halfOpenAttempts := 0 }
    { failureThreshold := 1, failureWindowMs := 1000, openDurationMs := 30000,
      successThreshold := 1, halfOpenMaxAttempts := 1 }
    "global" defaultIsFailure 0 1000 1000 (Except.ok none)
    rfl rfl (by decide)).1

/-- C7: if the circuit allows the request and the downstream chain throws,
the middleware records a failure on the group's bucket and rethrows the
same error; the context response stays empty.  When the bucket was CLOSED
the thrown failure lands in the failure window at the record time. -/
theorem cbMiddleware_records_failure_and_rethrows (b : Bucket)
    (o : GroupCBOptions) (mwD : Int) (throwOnOpen : Bool)
    (errorMessage : Option String) (group : String)
    (isFailureFn : MwResponse → Bool) (nowCheck nowRecord : Int) (e : String)
    (hallow : (isAllowed b o nowCheck).1 = true) :
    cbMiddleware b o mwD throwOnOpen errorMessage group isFailureFn
        nowCheck nowRecord (Except.error e) =
      { response := none
        bucket := recordFailure (isAllowed b o nowCheck).2 o nowRecord
        nextInvoked := true
        thrownError := some e
        circuitOpenThrown := none } ∧
    (b.state = .CLOSED →
      (cbMiddleware b o mwD throwOnOpen errorMessage group isFailureFn
          nowCheck nowRecord (Except.error e)).bucket.failures =
        cleanupFailures b.failures nowRecord o.failureWindowMs ++ [nowRecord]) := by
  have hbody : cbMiddleware b o mwD throwOnOpen errorMessage group isFailureFn
      nowCheck nowRecord (Except.error e) =
      { response := none
        bucket := recordFailure (isAllowed b o nowCheck).2 o nowRecord
        nextInvoked := true
        thrownError := some e
        circuitOpenThrown := none } := by
    unfold cbMiddleware
    rw [if_neg (by rw [hallow]; simp)]
  refine ⟨hbody, ?_⟩
  intro hcl
  rw [hbody]
  have hb2 : (isAllowed b o nowCheck).2 = b := by
    unfold isAllowed
    rw [hcl]
  rw [hb2]
  simp only [recordFailure, hcl]
  split
  · simp [transitionTo, hcl]
  · simp

/-- C7 witness. -/
theorem cbMiddleware_records_failure_and_rethrows_witness :
    cbMiddleware
        { state := .CLOSED
          failures := []
          successCount := 0
          openedAt := none
          halfOpenAttempts := 0 }
        { failureThreshold := 2, failureWindowMs := 1000,
          openDurationMs := 30000, successThreshold := 1,
          halfOpenMaxAttempts := 1 } 30000 false none "global" defaultIsFailure
        5 7 (Except.error "fetch failed") =
      { response := none
        bucket := recordFailure
          (isAllowed
            { state := .CLOSED
              failures := []
              successCount := 0
              openedAt := none
              halfOpenAttempts := 0 }
            { failureThreshold := 2, failureWindowMs := 1000,
              openDurationMs := 30000, successThreshold := 1,
              halfOpenMaxAttempts := 1 } 5).2
          { failureThreshold := 2, failureWindowMs := 1000,
            openDurationMs := 30000, successThreshold := 1,
            halfOpenMaxAttempts := 1 } 7
        nextInvoked := true
        thrownError := some "fetch failed"
        circuitOpenThrown := none } := by
  exact (cbMiddleware_records_failure_and_rethrows
    { state := .CLOSED
      failures := []
      successCount := 0
      openedAt := none
      halfOpenAttempts := 0 }
    { failureThreshold := 2, failureWindowMs := 1000, openDurationMs := 30000,
      successThreshold := 1, halfOpenMaxAttempts := 1 }
    30000 false none "global" defaultIsFailure 5 7 "fetch failed"
    (by decide)).1

/-! ## Retry middleware (`RetryMiddleware.ts`)

Only the control flow that decides how many times the inner chain runs is
relevant to the claims; delays (backoff, jitter, sleep) do not change the
invocation count and are not modelled.  The `Retry-After` header is
modelled by its parsed value in milliseconds (`parseRetryAfter` result).
`maxRetryAfter : Option Int` with `none` standing for the default
`Infinity`. -/

def DEFAULT_RETRY_METHODS : List String :=
  ["GET", "HEAD", "PUT", "DELETE", "OPTIONS", "TRACE"]

def DEFAULT_RETRY_STATUS_CODES : List Nat :=
  [408, 413, 429, 500, 502, 503, 504]

structure RetryOptions where
  limit : Nat
  methods : List String
  statusCodes : List Nat
  maxRetryAfter : Option Int
  shouldRetry : Option (Nat → Nat → Bool)

/-- Response of one inner-chain attempt as seen by the retry loop. -/
structure RResponse where
  status : Nat
  retryAfterMs : Option Int
deriving DecidableEq, Repr

/-- The loop-continuation condition checked after an attempt, in source
order: response present, attempt count below limit, retryable status,
`shouldRetry` approval, and the `Retry-After` value not exceeding
`maxRetryAfter`. -/
def wantsRetry (o : RetryOptions) (r : Option RResponse) (attempt : Nat) :
    Bool :=
  match r with
  | none => false
  | some resp =>
    decide (attempt < o.limit) &&
    decide (resp.status ∈ o.statusCodes) &&
    (match o.shouldRetry with
     | some p => p resp.status attempt
     | none => true) &&
    (match resp.retryAfterMs, o.maxRetryAfter with
     | some ra, some m => decide (ra ≤ m)
     | _, _ => true)

/-- The retry loop, counting inner-chain invocations.  `resp i` is the
response left in the context by the `i`-th invocation (`none` when no
response was produced).  Fuel `o.limit + 1 - attempt` bounds the loop. -/
def retryGo (o : RetryOptions) (resp : Nat → Option RResponse) :
    Nat → Nat → Nat
  | _, 0 => 0
  | attempt, fuel + 1 =>
    1 + (if wantsRetry o (resp attempt) attempt then
           retryGo o resp (attempt + 1) fuel
         else 0)

/-- `method.toUpperCase()` for the ASCII method names compared here
(written out character-wise so that it evaluates by kernel reduction). -/
def upperString (s : String) : String := String.mk (s.data.map Char.toUpper)

/-- Number of inner-chain invocations performed by
`RetryMiddleware.middleware()` for a request with the given method. -/
def retryInvocations (o : RetryOptions) (method : String)
    (resp : Nat → Option RResponse) : Nat :=
  if upperString method ∈ o.methods then retryGo o resp 0 (o.limit + 1) else 1

theorem retryGo_all_retryable (o : RetryOptions)
    (resp : Nat → Option RResponse) (hnone : o.shouldRetry = none)
    (hresp : ∀ i, ∃ r, resp i = some r ∧ r.status ∈ o.statusCodes ∧
      (∀ ra m, r.retryAfterMs = some ra → o.maxRetryAfter = some m → ra ≤ m)) :
    ∀ (fuel attempt : Nat), attempt + fuel = o.limit + 1 →
      retryGo o resp attempt fuel = fuel := by
  intro fuel
  induction fuel with
  | zero => intro attempt _; rfl
  | succ fuel ih =>
    intro attempt hsum
    obtain ⟨r, hr, hstatus, hra⟩ := hresp attempt
    show 1 + (if wantsRetry o (resp attempt) attempt then
      retryGo o resp (attempt + 1) fuel else 0) = fuel + 1
    cases fuel with
    | zero =>
      have hattempt : attempt = o.limit := by omega
      have hw : wantsRetry o (resp attempt) attempt = false := by
        rw [hr]
        unfold wantsRetry
        simp [hattempt]
      rw [hw]
      simp
    | succ fuel2 =>
      have hw : wantsRetry o (resp attempt) attempt = true := by
        have h1 : attempt < o.limit := by omega
        cases hrm : r.retryAfterMs with
        | none => simp [wantsRetry, hr, hnone, h1, hstatus, hrm]
        | some ra =>
          cases hm : o.maxRetryAfter with
          | none => simp [wantsRetry, hr, hnone, h1, hstatus, hrm, hm]
          | some m =>
            simp [wantsRetry, hr, hnone, h1, hstatus, hrm, hm, hra ra m hrm hm]
      rw [hw, if_pos rfl, ih (attempt + 1) (by omega)]
      omega

/-- C8: with retry limit `L`, a request whose upper-cased method is in the
configured retryable method set and whose every attempt yields a response
with a retryable status (no custom predicate configured, any `Retry-After`
value within `maxRetryAfter`) runs the inner chain exactly `L + 1` times;
a request whose method is not in the set runs it exactly once.  `POST` is
not in the default method set. -/
theorem retry_invocation_count (o : RetryOptions) (method : String)
    (resp : Nat → Option RResponse) (hnone : o.shouldRetry = none)
    (hresp : ∀ i, ∃ r, resp i = some r ∧ r.status ∈ o.statusCodes ∧
      (∀ ra m, r.retryAfterMs = some ra → o.maxRetryAfter = some m → ra ≤ m)) :
    (upperString method ∈ o.methods →
      retryInvocations o method resp = o.limit + 1) ∧
    (upperString method ∉ o.methods → retryInvocations o method resp = 1) ∧
    "POST" ∉ DEFAULT_RETRY_METHODS := by
  refine ⟨?_, ?_, by decide⟩
  · intro hm
    unfold retryInvocations
    rw [if_pos hm]
    exact retryGo_all_retryable o resp hnone hresp (o.limit + 1) 0 (by omega)
  · intro hm
    unfold retryInvocations
    rw [if_neg hm]

/-- C8 witness: default options with limit 2; every attempt returns 500.
A GET runs the chain 3 times, a POST only once. -/
theorem retry_invocation_count_witness :
    retryInvocations
        { limit := 2, methods := DEFAULT_RETRY_METHODS,
          statusCodes := DEFAULT_RETRY_STATUS_CODES, maxRetryAfter := none,
          shouldRetry := none } "GET"
        (fun _ => some { status := 500, retryAfterMs := none }) = 3 ∧
    retryInvocations
        { limit := 2, methods := DEFAULT_RETRY_METHODS,
          statusCodes := DEFAULT_RETRY_STATUS_CODES, maxRetryAfter := none,
          shouldRetry := none } "POST"
        (fun _ => some { status := 500, retryAfterMs := none }) = 1 := by
  constructor
  · exact (retry_invocation_count
      { limit := 2, methods := DEFAULT_RETRY_METHODS,
        statusCodes := DEFAULT_RETRY_STATUS_CODES, maxRetryAfter := none,
        shouldRetry := none } "GET"
      (fun _ => some { status := 500, retryAfterMs := none }) rfl
      (fun _ => ⟨{ status := 500, retryAfterMs := none }, rfl, by decide,
        fun ra m _ hm => by cases hm⟩)).1 (by decide)
  · exact (retry_invocation_count
      { limit := 2, methods := DEFAULT_RETRY_METHODS,
        statusCodes := DEFAULT_RETRY_STATUS_CODES, maxRetryAfter := none,
        shouldRetry := none } "POST"
      (fun _ => some { status := 500, retryAfterMs := none }) rfl
      (fun _ => ⟨{ status := 500, retryAfterMs := none }, rfl, by decide,
        fun ra m _ hm => by cases hm⟩)).2.1 (by decide)

/-! ## Tagged cache (`FetchClientCache`)

`cache : Map<string, CacheEntry>` and `tagIndex : Map<CacheTag, Set<string>>`
over the association-list embedding above.  The cached `Response` payload is
abstracted to a `Nat` identity (the cache never inspects it). -/

/-- `CacheKey = string[] | string`. -/
inductive CacheKey where
  | arr : List String → CacheKey
  | str : String → CacheKey
deriving DecidableEq, Repr

/-- `getHash`. -/
def getHash : CacheKey → String
  | .arr l => String.intercalate ":" l
  | .str s => s

structure CacheEntry where
  key : CacheKey
  tags : List String
  lastAccess : Int
  expires : Int
  response : Nat
deriving DecidableEq, Repr

structure CacheState where
  cache : List (String × CacheEntry)
  tagIndex : List (String × List String)
deriving DecidableEq, Repr

/-- `String.prototype.startsWith` (written over the character lists so that
it evaluates by kernel reduction). -/
def strStartsWith (s p : String) : Bool := p.data.isPrefixOf s.data

/-- One step of `removeTagAssociations`: drop `h` from tag `t`'s set and
delete the tag when its set becomes empty. -/
def removeTagAssoc1 (ti : List (String × List String)) (h t : String) :
    List (String × List String) :=
  match mapGet ti t with
  | none => ti
  | some s =>
    let s2 := setRemove s h
    if s2 = [] then mapDelete ti t else mapSet ti t s2

/-- `removeTagAssociations(hash, tags)`. -/
def removeTagAssociations (h : String) :
    List (String × List String) → List String → List (String × List String)
  | ti, [] => ti
  | ti, t :: ts => removeTagAssociations h (removeTagAssoc1 ti h t) ts

/-- One step of the tag-indexing loop in `set`: ensure tag `t` has a set and
add `h` to it. -/
def addTagAssoc1 (ti : List (String × List String)) (h t : String) :
    List (String × List String) :=
  match mapGet ti t with
  | none => mapSet ti t (setAdd [] h)
  | some s => mapSet ti t (setAdd s h)

def addTagAssociations (h : String) :
    List (String × List String) → List String → List (String × List String)
  | ti, [] => ti
  | ti, t :: ts => addTagAssociations h (addTagAssoc1 ti h t) ts

namespace FetchClientCache

/-- `FetchClientCache.set`. -/
def set (s : CacheState) (key : CacheKey) (response : Nat)
    (cacheDuration : Option Int) (tags : Option (List String)) (now : Int) :
    CacheState :=
  let hash := getHash key
  let normalizedTags := tags.getD []
  let ti1 :=
    match mapGet s.cache hash with
    | some existing => removeTagAssociations hash s.tagIndex existing.tags
    | none => s.tagIndex
  { cache := mapSet s.cache hash
      { key := key, tags := normalizedTags, lastAccess := now,
        expires := now + cacheDuration.getD 60000, response := response }
    tagIndex := addTagAssociations hash ti1 normalizedTags }

/-- `FetchClientCache.get`: result and post-state. -/
def get (s : CacheState) (key : CacheKey) (now : Int) :
    Option Nat × CacheState :=
  let hash := getHash key
  match mapGet s.cache hash with
  | none => (none, s)
  | some e =>
    if e.expires < now then
      (none,
       { cache := mapDelete s.cache hash
         tagIndex := removeTagAssociations hash s.tagIndex e.tags })
    else
      (some e.response,
       { cache := mapSet s.cache hash { e with lastAccess := now }
         tagIndex := s.tagIndex })

/-- `FetchClientCache.delete`. -/
def delete (s : CacheState) (key : CacheKey) : Bool × CacheState :=
  let hash := getHash key
  match mapGet s.cache hash with
  | some e =>
    (true,
     { cache := mapDelete s.cache hash
       tagIndex := removeTagAssociations hash s.tagIndex e.tags })
  | none => (false, s)

/-- `FetchClientCache.deleteAll` (iterates the entries; deleting the visited
key only, so iterating the snapshot list is faithful). -/
def deleteAll (s : CacheState) (key : CacheKey) : Nat × CacheState :=
  let ph := getHash key
  s.cache.foldl
    (fun acc p =>
      if strStartsWith p.1 ph then
        (acc.1 + if (mapGet acc.2.cache p.1).isSome then 1 else 0,
         { cache := mapDelete acc.2.cache p.1
           tagIndex := removeTagAssociations p.1 acc.2.tagIndex p.2.tags })
      else acc)
    (0, s)

/-- `FetchClientCache.deleteByTag` (iterates tag `T`'s member set; each step
only removes the member currently visited, so the snapshot fold is
faithful; the entry is re-read from the live cache as in the source). -/
def deleteByTag (s : CacheState) (tag : String) : Nat × CacheState :=
  match mapGet s.tagIndex tag with
  | none => (0, s)
  | some hashes =>
    hashes.foldl
      (fun acc h =>
        match mapGet acc.2.cache h with
        | some e =>
          (acc.1 + 1,
           { cache := mapDelete acc.2.cache h
             tagIndex := removeTagAssociations h acc.2.tagIndex e.tags })
        | none => acc)
      (0, s)

/-- `FetchClientCache.getTags`: tags whose member set is non-empty. -/
def getTags (s : CacheState) : List String :=
  (s.tagIndex.map Prod.fst).filter
    (fun t => decide (0 < ((mapGet s.tagIndex t).getD []).length))

/-- `FetchClientCache.getEntryTags`. -/
def getEntryTags (s : CacheState) (key : CacheKey) : List String :=
  ((mapGet s.cache (getHash key)).map CacheEntry.tags).getD []

/-- `FetchClientCache.has`. -/
def has (s : CacheState) (key : CacheKey) : Bool :=
  (mapGet s.cache (getHash key)).isSome

/-- `FetchClientCache.clear`. -/
def clear : CacheState := { cache := [], tagIndex := [] }

end FetchClientCache

/-- The member set of a tag (empty when the tag is absent). -/
def members (ti : List (String × List String)) (t : String) : List String :=
  (mapGet ti t).getD []

/-- Effect of `removeTagAssoc1` on one tag's stored set. -/
def rtaF (h : String) : Option (List String) → Option (List String)
  | none => none
  | some s =>
    let s2 := setRemove s h
    if s2 = [] then none else some s2

theorem removeTagAssoc1_get (ti : List (String × List String)) (h t0 t : String) :
    mapGet (removeTagAssoc1 ti h t0) t =
      if t = t0 then rtaF h (mapGet ti t0) else mapGet ti t := by
  unfold removeTagAssoc1
  cases hg : mapGet ti t0 with
  | none =>
    by_cases ht : t = t0
    · subst ht; rw [if_pos rfl, hg]; rfl
    · rw [if_neg ht]
  | some s =>
    by_cases hs : setRemove s h = []
    · simp only [hs, if_pos rfl, reduceIte]
      rw [mapGet_mapDelete]
      by_cases ht : t = t0
      · rw [if_pos ht, if_pos ht]
        simp [rtaF, hs]
      · rw [if_neg ht, if_neg ht]
    · simp only [hs, reduceIte]
      rw [mapGet_mapSet]
      by_cases ht : t = t0
      · rw [if_pos ht, if_pos ht]
        simp [rtaF, hs]
      · rw [if_neg ht, if_neg ht]

theorem rtaF_idem (h : String) (o : Option (List String)) :
    rtaF h (rtaF h o) = rtaF h o := by
  cases o with
  | none => rfl
  | some s =>
    by_cases hs : setRemove s h = []
    · simp [rtaF, hs]
    · simp [rtaF, hs, setRemove_idem]

theorem removeTagAssociations_get (h t : String) :
    ∀ (tags : List String) (ti : List (String × List String)),
      mapGet (removeTagAssociations h ti tags) t =
        if t ∈ tags then rtaF h (mapGet ti t) else mapGet ti t := by
  intro tags
  induction tags with
  | nil => intro ti; simp [removeTagAssociations]
  | cons t0 ts ih =>
    intro ti
    show mapGet (removeTagAssociations h (removeTagAssoc1 ti h t0) ts) t = _
    rw [ih, removeTagAssoc1_get]
    by_cases hts : t ∈ ts
    · rw [if_pos hts, if_pos (List.mem_cons_of_mem _ hts)]
      by_cases ht : t = t0
      · rw [if_pos ht, ht, rtaF_idem]
      · rw [if_neg ht]
    · rw [if_neg hts]
      by_cases ht : t = t0
      · rw [if_pos ht, ht, if_pos (List.mem_cons_self _ _)]
      · rw [if_neg ht, if_neg (by simp [ht, hts])]

/-- Effect of `addTagAssoc1` on one tag's stored set. -/
def ataF (h : String) (o : Option (List String)) : Option (List String) :=
  some (setAdd (o.getD []) h)

theorem setAdd_idem (s : List String) (h : String) :
    setAdd (setAdd s h) h = setAdd s h := by
  have hh : h ∈ setAdd s h := (mem_setAdd s h h).2 (Or.inr rfl)
  show (if h ∈ setAdd s h then setAdd s h else setAdd s h ++ [h]) = setAdd s h
  rw [if_pos hh]

theorem addTagAssoc1_get (ti : List (String × List String)) (h t0 t : String) :
    mapGet (addTagAssoc1 ti h t0) t =
      if t = t0 then ataF h (mapGet ti t0) else mapGet ti t := by
  unfold addTagAssoc1
  cases hg : mapGet ti t0 with
  | none =>
    rw [mapGet_mapSet]
    by_cases ht : t = t0
    · rw [if_pos ht, if_pos ht]; rfl
    · rw [if_neg ht, if_neg ht]
  | some s =>
    rw [mapGet_mapSet]
    by_cases ht : t = t0
    · rw [if_pos ht, if_pos ht]; rfl
    · rw [if_neg ht, if_neg ht]

theorem ataF_idem (h : String) (o : Option (List String)) :
    ataF h (ataF h o) = ataF h o := by
  unfold ataF
  simp [setAdd_idem]

theorem addTagAssociations_get (h t : String) :
    ∀ (tags : List String) (ti : List (String × List String)),
      mapGet (addTagAssociations h ti tags) t =
        if t ∈ tags then ataF h (mapGet ti t) else mapGet ti t := by
  intro tags
  induction tags with
  | nil => intro ti; simp [addTagAssociations]
  | cons t0 ts ih =>
    intro ti
    show mapGet (addTagAssociations h (addTagAssoc1 ti h t0) ts) t = _
    rw [ih, addTagAssoc1_get]
    by_cases hts : t ∈ ts
    · rw [if_pos hts, if_pos (List.mem_cons_of_mem _ hts)]
      by_cases ht : t = t0
      · rw [if_pos ht, ht, ataF_idem]
      · rw [if_neg ht]
    · rw [if_neg hts]
      by_cases ht : t = t0
      · rw [if_pos ht, ht, if_pos (List.mem_cons_self _ _)]
      · rw [if_neg ht, if_neg (by simp [ht, hts])]

theorem nodupTags_removeTagAssoc1 (ti : List (String × List String))
    (h t0 : String) (hnd : (ti.map Prod.fst).Nodup) :
    ((removeTagAssoc1 ti h t0).map Prod.fst).Nodup := by
  unfold removeTagAssoc1
  cases mapGet ti t0 with
  | none => exact hnd
  | some s =>
    by_cases hs : setRemove s h = []
    · simp only [hs, reduceIte]
      exact nodupKeys_mapDelete _ _ hnd
    · simp only [hs, reduceIte]
      exact nodupKeys_mapSet _ _ _ hnd

theorem nodupTags_removeTagAssociations (h : String) :
    ∀ (tags : List String) (ti : List (String × List String)),
      (ti.map Prod.fst).Nodup →
      ((removeTagAssociations h ti tags).map Prod.fst).Nodup := by
  intro tags
  induction tags with
  | nil => intro ti hnd; exact hnd
  | cons t0 ts ih =>
    intro ti hnd
    exact ih _ (nodupTags_removeTagAssoc1 ti h t0 hnd)

theorem nodupTags_addTagAssoc1 (ti : List (String × List String))
    (h t0 : String) (hnd : (ti.map Prod.fst).Nodup) :
    ((addTagAssoc1 ti h t0).map Prod.fst).Nodup := by
  unfold addTagAssoc1
  cases mapGet ti t0 with
  | none => exact nodupKeys_mapSet _ _ _ hnd
  | some s => exact nodupKeys_mapSet _ _ _ hnd

theorem nodupTags_addTagAssociations (h : String) :
    ∀ (tags : List String) (ti : List (String × List String)),
      (ti.map Prod.fst).Nodup →
      ((addTagAssociations h ti tags).map Prod.fst).Nodup := by
  intro tags
  induction tags with
  | nil => intro ti hnd; exact hnd
  | cons t0 ts ih =>
    intro ti hnd
    exact ih _ (nodupTags_addTagAssoc1 ti h t0 hnd)

theorem mem_members_removeTagAssociations
    (ti : List (String × List String)) (h : String) (tags : List String)
    (t x : String) :
    x ∈ members (removeTagAssociations h ti tags) t ↔
      (x ∈ members ti t ∧ (t ∈ tags → x ≠ h)) := by
  unfold members
  rw [removeTagAssociations_get]
  by_cases ht : t ∈ tags
  · rw [if_pos ht]
    cases hg : mapGet ti t with
    | none => simp [rtaF]
    | some s =>
      by_cases hs : setRemove s h = []
      · simp only [rtaF, hs, reduceIte, Option.getD_none, Option.getD_some]
        constructor
        · intro hx; exact absurd hx (List.not_mem_nil x)
        · rintro ⟨hx, hne⟩
          exact absurd ((mem_setRemove s h x).2 ⟨hx, hne ht⟩) (by simp [hs])
      · simp only [rtaF, hs, reduceIte, Option.getD_some]
        rw [mem_setRemove]
        constructor
        · rintro ⟨hx, hne⟩; exact ⟨hx, fun _ => hne⟩
        · rintro ⟨hx, hne⟩; exact ⟨hx, hne ht⟩
  · rw [if_neg ht]
    constructor
    · intro hx; exact ⟨hx, fun hc => absurd hc ht⟩
    · rintro ⟨hx, _⟩; exact hx

theorem mem_members_addTagAssociations
    (ti : List (String × List String)) (h : String) (tags : List String)
    (t x : String) :
    x ∈ members (addTagAssociations h ti tags) t ↔
      (x ∈ members ti t ∨ (t ∈ tags ∧ x = h)) := by
  unfold members
  rw [addTagAssociations_get]
  by_cases ht : t ∈ tags
  · rw [if_pos ht]
    simp only [ataF, Option.getD_some]
    rw [mem_setAdd]
    constructor
    · rintro (hx | rfl)
      · exact Or.inl hx
      · exact Or.inr ⟨ht, rfl⟩
    · rintro (hx | ⟨_, rfl⟩)
      · exact Or.inl hx
      · exact Or.inr rfl
  · rw [if_neg ht]
    constructor
    · intro hx; exact Or.inl hx
    · rintro (hx | ⟨hc, _⟩)
      · exact hx
      · exact absurd hc ht

/-- The cache / tag-index consistency invariant (C9): unique keys, every
entry's tags indexed with the entry's key as member, every indexed member
backed by an entry carrying the tag, member sets duplicate-free and never
stored empty.  Phrased over list membership so that it is decidable on
concrete states. -/
def Inv (s : CacheState) : Prop :=
  (s.cache.map Prod.fst).Nodup ∧
  (s.tagIndex.map Prod.fst).Nodup ∧
  (∀ p ∈ s.tagIndex, (p.2 : List String).Nodup) ∧
  (∀ p ∈ s.tagIndex, p.2 ≠ []) ∧
  (∀ p ∈ s.cache, ∀ t ∈ (p.2 : CacheEntry).tags,
    ∃ q ∈ s.tagIndex, q.1 = t ∧ p.1 ∈ q.2) ∧
  (∀ p ∈ s.tagIndex, ∀ h ∈ (p.2 : List String),
    ∃ q ∈ s.cache, q.1 = h ∧ p.1 ∈ (q.2 : CacheEntry).tags)

instance decidableInv (s : CacheState) : Decidable (Inv s) := by
  unfold Inv
  infer_instance

/-- `Inv` phrased through `mapGet` / `members`; the working form in proofs. -/
def InvG (s : CacheState) : Prop :=
  (s.cache.map Prod.fst).Nodup ∧
  (s.tagIndex.map Prod.fst).Nodup ∧
  (∀ t, (members s.tagIndex t).Nodup) ∧
  (∀ t ms, mapGet s.tagIndex t = some ms → ms ≠ []) ∧
  (∀ h e, mapGet s.cache h = some e → ∀ t ∈ e.tags,
    h ∈ members s.tagIndex t) ∧
  (∀ t x, x ∈ members s.tagIndex t →
    ∃ e, mapGet s.cache x = some e ∧ t ∈ e.tags)

theorem mem_members_iff (ti : List (String × List String)) (t x : String) :
    x ∈ members ti t ↔ ∃ ms, mapGet ti t = some ms ∧ x ∈ ms := by
  unfold members
  cases hg : mapGet ti t <;> simp

theorem inv_iff_invG (s : CacheState) : Inv s ↔ InvG s := by
  constructor
  · rintro ⟨hK, hT, hN, hNE, hF, hB⟩
    refine ⟨hK, hT, ?_, ?_, ?_, ?_⟩
    · intro t
      unfold members
      cases hg : mapGet s.tagIndex t with
      | none => simp
      | some ms => exact hN (t, ms) (mem_of_mapGet_eq_some hg)
    · intro t ms hg
      exact hNE (t, ms) (mem_of_mapGet_eq_some hg)
    · intro h e hg t ht
      obtain ⟨q, hq, hq1, hq2⟩ := hF (h, e) (mem_of_mapGet_eq_some hg) t ht
      rw [mem_members_iff]
      refine ⟨q.2, ?_, hq2⟩
      apply mapGet_eq_some_of_mem hT
      rw [← hq1]
      exact hq
    · intro t x hx
      rw [mem_members_iff] at hx
      obtain ⟨ms, hg, hx⟩ := hx
      obtain ⟨q, hq, hq1, hq2⟩ := hB (t, ms) (mem_of_mapGet_eq_some hg) x hx
      refine ⟨q.2, ?_, hq2⟩
      apply mapGet_eq_some_of_mem hK
      rw [← hq1]
      exact hq
  · rintro ⟨hK, hT, hN, hNE, hF, hB⟩
    refine ⟨hK, hT, ?_, ?_, ?_, ?_⟩
    · intro p hp
      have := hN p.1
      unfold members at this
      rw [mapGet_eq_some_of_mem hT (by rw [Prod.mk.eta]; exact hp)] at this
      exact this
    · intro p hp
      exact hNE p.1 p.2 (mapGet_eq_some_of_mem hT (by rw [Prod.mk.eta]; exact hp))
    · intro p hp t ht
      have hg := mapGet_eq_some_of_mem hK (by rw [Prod.mk.eta]; exact hp)
      have := hF p.1 p.2 hg t ht
      rw [mem_members_iff] at this
      obtain ⟨ms, hgm, hmem⟩ := this
      exact ⟨(t, ms), mem_of_mapGet_eq_some hgm, rfl, hmem⟩
    · intro p hp h hh
      have hg := mapGet_eq_some_of_mem hT (by rw [Prod.mk.eta]; exact hp)
      have hmem : h ∈ members s.tagIndex p.1 := by
        rw [mem_members_iff]
        exact ⟨p.2, hg, hh⟩
      obtain ⟨e, hge, hte⟩ := hB p.1 h hmem
      exact ⟨(h, e), mem_of_mapGet_eq_some hge, rfl, hte⟩

/-- Deleting an entry (its map slot plus its tag associations) preserves
the invariant: the common core of `get`-on-expired, `delete`, `deleteAll`
and `deleteByTag`. -/
theorem invG_deleteEntry (s : CacheState) (h : String) (e : CacheEntry)
    (hg : mapGet s.cache h = some e) (hI : InvG s) :
    InvG { cache := mapDelete s.cache h
           tagIndex := removeTagAssociations h s.tagIndex e.tags } := by
  obtain ⟨hK, hT, hN, hNE, hF, hB⟩ := hI
  refine ⟨nodupKeys_mapDelete _ _ hK,
    nodupTags_removeTagAssociations _ _ _ hT, ?_, ?_, ?_, ?_⟩
  · intro t
    unfold members
    rw [removeTagAssociations_get]
    by_cases ht : t ∈ e.tags
    · rw [if_pos ht]
      cases hg2 : mapGet s.tagIndex t with
      | none => simp [rtaF]
      | some ms =>
        have hms : ms.Nodup := by
          have := hN t
          unfold members at this
          rw [hg2] at this
          exact this
        by_cases hs : setRemove ms h = []
        · simp [rtaF, hs]
        · simp only [rtaF, hs, reduceIte, Option.getD_some]
          exact nodup_setRemove ms h hms
    · rw [if_neg ht]
      have := hN t
      unfold members at this
      exact this
  · intro t ms hm
    rw [removeTagAssociations_get] at hm
    by_cases ht : t ∈ e.tags
    · rw [if_pos ht] at hm
      cases hg2 : mapGet s.tagIndex t with
      | none => rw [hg2] at hm; cases hm
      | some ms0 =>
        rw [hg2] at hm
        by_cases hs : setRemove ms0 h = []
        · simp [rtaF, hs] at hm
        · simp only [rtaF, hs, reduceIte, Option.some.injEq] at hm
          rw [← hm]
          exact hs
    · rw [if_neg ht] at hm
      exact hNE t ms hm
  · intro h2 e2 hg2 t ht
    rw [mapGet_mapDelete] at hg2
    by_cases hh : h2 = h
    · rw [if_pos hh] at hg2; cases hg2
    · rw [if_neg hh] at hg2
      rw [mem_members_removeTagAssociations]
      exact ⟨hF h2 e2 hg2 t ht, fun _ => hh⟩
  · intro t x hx
    rw [mem_members_removeTagAssociations] at hx
    obtain ⟨hx, hcond⟩ := hx
    obtain ⟨e2, hge2, hte2⟩ := hB t x hx
    by_cases hxh : x = h
    · subst hxh
      rw [hg] at hge2
      injection hge2 with he
      subst he
      exact absurd rfl (hcond hte2)
    · refine ⟨e2, ?_, hte2⟩
      rw [mapGet_mapDelete, if_neg hxh]
      exact hge2

theorem memNodup_removeTagAssociations (ti : List (String × List String))
    (h : String) (tags : List String) (hN : ∀ t, (members ti t).Nodup) :
    ∀ t, (members (removeTagAssociations h ti tags) t).Nodup := by
  intro t
  unfold members
  rw [removeTagAssociations_get]
  by_cases ht : t ∈ tags
  · rw [if_pos ht]
    cases hg : mapGet ti t with
    | none => simp [rtaF]
    | some ms =>
      have hms : ms.Nodup := by
        have := hN t
        unfold members at this
        rw [hg] at this
        exact this
      by_cases hs : setRemove ms h = []
      · simp [rtaF, hs]
      · simp only [rtaF, hs, reduceIte, Option.getD_some]
        exact nodup_setRemove ms h hms
  · rw [if_neg ht]
    have := hN t
    unfold members at this
    exact this

theorem nonempty_removeTagAssociations (ti : List (String × List String))
    (h : String) (tags : List String)
    (hNE : ∀ t ms, mapGet ti t = some ms → ms ≠ []) :
    ∀ t ms, mapGet (removeTagAssociations h ti tags) t = some ms → ms ≠ [] := by
  intro t ms hm
  rw [removeTagAssociations_get] at hm
  by_cases ht : t ∈ tags
  · rw [if_pos ht] at hm
    cases hg : mapGet ti t with
    | none => rw [hg] at hm; cases hm
    | some ms0 =>
      rw [hg] at hm
      by_cases hs : setRemove ms0 h = []
      · simp [rtaF, hs] at hm
      · simp only [rtaF, hs, reduceIte, Option.some.injEq] at hm
        rw [← hm]
        exact hs
  · rw [if_neg ht] at hm
    exact hNE t ms hm

theorem memNodup_addTagAssociations (ti : List (String × List String))
    (h : String) (tags : List String) (hN : ∀ t, (members ti t).Nodup) :
    ∀ t, (members (addTagAssociations h ti tags) t).Nodup := by
  intro t
  unfold members
  rw [addTagAssociations_get]
  by_cases ht : t ∈ tags
  · rw [if_pos ht]
    simp only [ataF, Option.getD_some]
    apply nodup_setAdd
    have := hN t
    unfold members at this
    exact this
  · rw [if_neg ht]
    have := hN t
    unfold members at this
    exact this

theorem nonempty_addTagAssociations (ti : List (String × List String))
    (h : String) (tags : List String)
    (hNE : ∀ t ms, mapGet ti t = some ms → ms ≠ []) :
    ∀ t ms, mapGet (addTagAssociations h ti tags) t = some ms → ms ≠ [] := by
  intro t ms hm
  rw [addTagAssociations_get] at hm
  by_cases ht : t ∈ tags
  · rw [if_pos ht] at hm
    simp only [ataF, Option.some.injEq] at hm
    rw [← hm]
    exact setAdd_ne_nil _ _
  · rw [if_neg ht] at hm
    exact hNE t ms hm

/-- Core of `set`'s invariant preservation, abstracted over the
intermediate tag index `ti1` (the old entry's associations removed). -/
theorem invG_setCore (cache : List (String × CacheEntry))
    (ti ti1 : List (String × List String)) (hash : String) (newE : CacheEntry)
    (hK : (cache.map Prod.fst).Nodup)
    (hF : ∀ h e, mapGet cache h = some e → ∀ t ∈ e.tags, h ∈ members ti t)
    (hB : ∀ t x, x ∈ members ti t → ∃ e, mapGet cache x = some e ∧ t ∈ e.tags)
    (hT1 : (ti1.map Prod.fst).Nodup)
    (hN1 : ∀ t, (members ti1 t).Nodup)
    (hNE1 : ∀ t ms, mapGet ti1 t = some ms → ms ≠ [])
    (hM1 : ∀ t x, x ∈ members ti1 t → x ∈ members ti t ∧ x ≠ hash)
    (hM2 : ∀ t x, x ∈ members ti t → x ≠ hash → x ∈ members ti1 t) :
    InvG { cache := mapSet cache hash newE
           tagIndex := addTagAssociations hash ti1 newE.tags } := by
  refine ⟨nodupKeys_mapSet _ _ _ hK,
    nodupTags_addTagAssociations _ _ _ hT1,
    memNodup_addTagAssociations _ _ _ hN1,
    nonempty_addTagAssociations _ _ _ hNE1, ?_, ?_⟩
  · intro h2 e2 hg2 t ht
    rw [mapGet_mapSet] at hg2
    rw [mem_members_addTagAssociations]
    by_cases hh : h2 = hash
    · rw [if_pos hh] at hg2
      injection hg2 with he
      subst he
      exact Or.inr ⟨ht, hh⟩
    · rw [if_neg hh] at hg2
      exact Or.inl (hM2 t h2 (hF h2 e2 hg2 t ht) hh)
  · intro t x hx
    rw [mem_members_addTagAssociations] at hx
    rcases hx with hx | ⟨ht, rfl⟩
    · obtain ⟨hmem, hne⟩ := hM1 t x hx
      obtain ⟨e2, hge2, hte2⟩ := hB t x hmem
      refine ⟨e2, ?_, hte2⟩
      rw [mapGet_mapSet, if_neg hne]
      exact hge2
    · refine ⟨newE, ?_, ht⟩
      rw [mapGet_mapSet, if_pos rfl]

/-- `set` preserves the invariant. -/
theorem invG_set (s : CacheState) (key : CacheKey) (r : Nat) (d : Option Int)
    (tags : Option (List String)) (now : Int) (hI : InvG s) :
    InvG (FetchClientCache.set s key r d tags now) := by
  obtain ⟨hK, hT, hN, hNE, hF, hB⟩ := hI
  unfold FetchClientCache.set
  cases hold : mapGet s.cache (getHash key) with
  | some old =>
    simp only [hold]
    exact invG_setCore s.cache s.tagIndex _ (getHash key) _ hK hF hB
      (nodupTags_removeTagAssociations _ _ _ hT)
      (memNodup_removeTagAssociations _ _ _ hN)
      (nonempty_removeTagAssociations _ _ _ hNE)
      (by
        intro t x hx
        rw [mem_members_removeTagAssociations] at hx
        obtain ⟨hx, hcond⟩ := hx
        refine ⟨hx, ?_⟩
        intro hxh
        obtain ⟨e2, hge2, hte2⟩ := hB t x hx
        rw [hxh, hold] at hge2
        injection hge2 with he
        subst he
        exact hcond hte2 hxh)
      (by
        intro t x hx hne
        rw [mem_members_removeTagAssociations]
        exact ⟨hx, fun _ => hne⟩)
  | none =>
    simp only [hold]
    exact invG_setCore s.cache s.tagIndex s.tagIndex (getHash key) _ hK hF hB
      hT hN hNE
      (by
        intro t x hx
        refine ⟨hx, ?_⟩
        intro hxh
        obtain ⟨e2, hge2, _⟩ := hB t x hx
        rw [hxh, hold] at hge2
        cases hge2)
      (fun t x hx _ => hx)

/-- `get` preserves the invariant (both the expiring read and the fresh
read, which only refreshes `lastAccess`). -/
theorem invG_get (s : CacheState) (key : CacheKey) (now : Int) (hI : InvG s) :
    InvG (FetchClientCache.get s key now).2 := by
  unfold FetchClientCache.get
  cases hold : mapGet s.cache (getHash key) with
  | none => simp only [hold]; exact hI
  | some e =>
    by_cases hexp : e.expires < now
    · simp only [hold, if_pos hexp]
      exact invG_deleteEntry s (getHash key) e hold hI
    · simp only [hold, if_neg hexp]
      obtain ⟨hK, hT, hN, hNE, hF, hB⟩ := hI
      refine ⟨nodupKeys_mapSet _ _ _ hK, hT, hN, hNE, ?_, ?_⟩
      · intro h2 e2 hg2 t ht
        rw [mapGet_mapSet] at hg2
        by_cases hh : h2 = getHash key
        · rw [if_pos hh] at hg2
          injection hg2 with he
          subst he
          subst hh
          exact hF _ e hold t ht
        · rw [if_neg hh] at hg2
          exact hF h2 e2 hg2 t ht
      · intro t x hx
        obtain ⟨e2, hge2, hte2⟩ := hB t x hx
        by_cases hh : x = getHash key
        · subst hh
          rw [hold] at hge2
          injection hge2 with he
          subst he
          refine ⟨{ e with lastAccess := now }, ?_, hte2⟩
          rw [mapGet_mapSet, if_pos rfl]
        · refine ⟨e2, ?_, hte2⟩
          rw [mapGet_mapSet, if_neg hh]
          exact hge2

/-- `delete` preserves the invariant. -/
theorem invG_delete (s : CacheState) (key : CacheKey) (hI : InvG s) :
    InvG (FetchClientCache.delete s key).2 := by
  unfold FetchClientCache.delete
  cases hold : mapGet s.cache (getHash key) with
  | none => simp only [hold]; exact hI
  | some e =>
    simp only [hold]
    exact invG_deleteEntry s (getHash key) e hold hI

theorem invG_clear : InvG FetchClientCache.clear := by
  unfold FetchClientCache.clear
  refine ⟨by simp, by simp, ?_, ?_, ?_, ?_⟩
  · intro t; simp [members, mapGet]
  · intro t ms hm; simp [mapGet] at hm
  · intro h e hg; simp [mapGet] at hg
  · intro t x hx; simp [members, mapGet] at hx

/-- Deleting a hash together with a tag list that matches its live entry
(vacuously when the hash is absent) preserves the invariant: the shape of
each `deleteAll` step, whose tag list comes from the iteration snapshot. -/
theorem invG_deleteStale (s : CacheState) (h : String) (tags : List String)
    (hI : InvG s)
    (hmatch : ∀ e, mapGet s.cache h = some e → e.tags = tags) :
    InvG { cache := mapDelete s.cache h
           tagIndex := removeTagAssociations h s.tagIndex tags } := by
  cases hold : mapGet s.cache h with
  | some e =>
    rw [← hmatch e hold]
    exact invG_deleteEntry s h e hold hI
  | none =>
    obtain ⟨hK, hT, hN, hNE, hF, hB⟩ := hI
    have habs : ∀ t x, x ∈ members s.tagIndex t → x ≠ h := by
      intro t x hx hxh
      subst hxh
      obtain ⟨e2, hge2, _⟩ := hB t x hx
      rw [hold] at hge2
      cases hge2
    refine ⟨nodupKeys_mapDelete _ _ hK,
      nodupTags_removeTagAssociations _ _ _ hT,
      memNodup_removeTagAssociations _ _ _ hN,
      nonempty_removeTagAssociations _ _ _ hNE, ?_, ?_⟩
    · intro h2 e2 hg2 t ht
      rw [mapGet_mapDelete] at hg2
      by_cases hh : h2 = h
      · rw [if_pos hh] at hg2; cases hg2
      · rw [if_neg hh] at hg2
        rw [mem_members_removeTagAssociations]
        exact ⟨hF h2 e2 hg2 t ht, fun _ => hh⟩
    · intro t x hx
      rw [mem_members_removeTagAssociations] at hx
      obtain ⟨hx, _⟩ := hx
      obtain ⟨e2, hge2, hte2⟩ := hB t x hx
      refine ⟨e2, ?_, hte2⟩
      rw [mapGet_mapDelete, if_neg (habs t x hx)]
      exact hge2

/-- The `deleteAll` fold preserves the invariant: each step deletes the
visited key using the snapshot entry's tags, which match the live entry
(deletions never modify surviving entries). -/
theorem invG_deleteAll_fold (ph : String) :
    ∀ (L : List (String × CacheEntry)) (acc : Nat × CacheState),
      InvG acc.2 →
      (∀ p ∈ L, ∀ e, mapGet acc.2.cache p.1 = some e → e.tags = p.2.tags) →
      InvG (L.foldl
        (fun acc p =>
          if strStartsWith p.1 ph then
            (acc.1 + if (mapGet acc.2.cache p.1).isSome then 1 else 0,
             { cache := mapDelete acc.2.cache p.1
               tagIndex := removeTagAssociations p.1 acc.2.tagIndex p.2.tags })
          else acc) acc).2 := by
  intro L
  induction L with
  | nil => intro acc hI _; exact hI
  | cons p L ih =>
    intro acc hI hmatch
    rw [List.foldl_cons]
    by_cases hp : strStartsWith p.1 ph
    · rw [if_pos hp]
      apply ih
      · exact invG_deleteStale acc.2 p.1 p.2.tags hI
          (hmatch p (List.mem_cons_self _ _))
      · intro q hq e hge
        apply hmatch q (List.mem_cons_of_mem _ hq)
        simp only [mapGet_mapDelete] at hge
        by_cases hqp : q.1 = p.1
        · rw [if_pos hqp] at hge; cases hge
        · rw [if_neg hqp] at hge; exact hge
    · rw [if_neg hp]
      exact ih acc hI (fun q hq => hmatch q (List.mem_cons_of_mem _ hq))

/-- `deleteAll` preserves the invariant. -/
theorem invG_deleteAll (s : CacheState) (key : CacheKey) (hI : InvG s) :
    InvG (FetchClientCache.deleteAll s key).2 := by
  unfold FetchClientCache.deleteAll
  apply invG_deleteAll_fold (getHash key) s.cache (0, s) hI
  intro p hp e hge
  have := mapGet_eq_some_of_mem hI.1 (by rw [Prod.mk.eta]; exact hp)
  rw [this] at hge
  injection hge with he
  rw [← he]

/-- The `deleteByTag` fold preserves the invariant: each step re-reads the
live entry and deletes it with its own tags. -/
theorem invG_deleteByTag_fold :
    ∀ (L : List String) (acc : Nat × CacheState), InvG acc.2 →
      InvG (L.foldl
        (fun acc h =>
          match mapGet acc.2.cache h with
          | some e =>
            (acc.1 + 1,
             { cache := mapDelete acc.2.cache h
               tagIndex := removeTagAssociations h acc.2.tagIndex e.tags })
          | none => acc) acc).2 := by
  intro L
  induction L with
  | nil => intro acc hI; exact hI
  | cons h L ih =>
    intro acc hI
    rw [List.foldl_cons]
    cases hg : mapGet acc.2.cache h with
    | some e =>
      simp only [hg]
      exact ih _ (invG_deleteEntry acc.2 h e hg hI)
    | none =>
      simp only [hg]
      exact ih acc hI

/-- `deleteByTag` preserves the invariant. -/
theorem invG_deleteByTag (s : CacheState) (tag : String) (hI : InvG s) :
    InvG (FetchClientCache.deleteByTag s tag).2 := by
  unfold FetchClientCache.deleteByTag
  cases hg : mapGet s.tagIndex tag with
  | none => simp only [hg]; exact hI
  | some hashes =>
    simp only [hg]
    exact invG_deleteByTag_fold hashes (0, s) hI

/-- C9: every cache operation — `set`, `get`, `delete`, `deleteAll`,
`deleteByTag`, `clear` — preserves the consistency invariant between the
entry map and the tag index (entries' tags indexed with the entry's key as
member, indexed members backed by entries carrying the tag, no tag stored
with an empty member set), and `getTags` only returns tags that still have
a non-empty member set. -/
theorem cache_invariant_preserved (s : CacheState) (hI : Inv s) :
    (∀ key r d tags now, Inv (FetchClientCache.set s key r d tags now)) ∧
    (∀ key now, Inv (FetchClientCache.get s key now).2) ∧
    (∀ key, Inv (FetchClientCache.delete s key).2) ∧
    (∀ key, Inv (FetchClientCache.deleteAll s key).2) ∧
    (∀ tag, Inv (FetchClientCache.deleteByTag s tag).2) ∧
    Inv FetchClientCache.clear ∧
    (∀ t, t ∈ FetchClientCache.getTags s →
      ∃ ms, mapGet s.tagIndex t = some ms ∧ ms ≠ []) := by
  rw [inv_iff_invG] at hI
  refine ⟨?_, ?_, ?_, ?_, ?_, ?_, ?_⟩
  · intro key r d tags now
    rw [inv_iff_invG]
    exact invG_set s key r d tags now hI
  · intro key now
    rw [inv_iff_invG]
    exact invG_get s key now hI
  · intro key
    rw [inv_iff_invG]
    exact invG_delete s key hI
  · intro key
    rw [inv_iff_invG]
    exact invG_deleteAll s key hI
  · intro tag
    rw [inv_iff_invG]
    exact invG_deleteByTag s tag hI
  · rw [inv_iff_invG]
    exact invG_clear
  · intro t ht
    unfold FetchClientCache.getTags at ht
    rw [List.mem_filter] at ht
    obtain ⟨_, hlen⟩ := ht
    rw [decide_eq_true_eq] at hlen
    cases hg : mapGet s.tagIndex t with
    | none => rw [hg] at hlen; simp at hlen
    | some ms =>
      refine ⟨ms, rfl, ?_⟩
      rw [hg] at hlen
      simp only [Option.getD_some] at hlen
      intro hnil
      rw [hnil] at hlen
      simp at hlen

/-- A concrete cache entry used by the witnesses. -/
def demoEntryUsers : CacheEntry :=
  { key := .str "users:1"
    tags := ["users", "session"]
    lastAccess := 0
    expires := 100
    response := 1 }

/-- A concrete cache entry used by the witnesses. -/
def demoEntryPosts : CacheEntry :=
  { key := .str "posts:1"
    tags := ["posts", "session"]
    lastAccess := 0
    expires := 100
    response := 2 }

/-- A concrete two-entry, three-tag cache state used by the witnesses. -/
def demoCacheState : CacheState :=
  { cache := [("users:1", demoEntryUsers), ("posts:1", demoEntryPosts)]
    tagIndex := [("users", ["users:1"]), ("session", ["users:1", "posts:1"]),
      ("posts", ["posts:1"])] }

/-- C9 witness: a two-entry, two-tag state satisfying the invariant. -/
theorem cache_invariant_preserved_witness :
    Inv (FetchClientCache.deleteByTag demoCacheState "users").2 ∧
    Inv FetchClientCache.clear := by
  have h := cache_invariant_preserved demoCacheState (by decide)
  exact ⟨h.2.2.2.2.1 "users", h.2.2.2.2.2.1⟩

/-- Full behaviour of the `deleteByTag` fold over a duplicate-free list of
hashes that all have live entries: it deletes exactly those entries, strips
their memberships from every tag, leaves all other entries and memberships
alone and counts one per hash. -/
theorem deleteByTag_fold_spec :
    ∀ (L : List String) (acc : Nat × CacheState),
      InvG acc.2 → L.Nodup →
      (∀ h ∈ L, (mapGet acc.2.cache h).isSome = true) →
      (L.foldl
        (fun acc h =>
          match mapGet acc.2.cache h with
          | some e =>
            (acc.1 + 1,
             { cache := mapDelete acc.2.cache h
               tagIndex := removeTagAssociations h acc.2.tagIndex e.tags })
          | none => acc) acc).1 = acc.1 + L.length ∧
      (∀ h, h ∉ L →
        mapGet (L.foldl
          (fun acc h =>
            match mapGet acc.2.cache h with
            | some e =>
              (acc.1 + 1,
               { cache := mapDelete acc.2.cache h
                 tagIndex := removeTagAssociations h acc.2.tagIndex e.tags })
            | none => acc) acc).2.cache h = mapGet acc.2.cache h) ∧
      (∀ h ∈ L,
        mapGet (L.foldl
          (fun acc h =>
            match mapGet acc.2.cache h with
            | some e =>
              (acc.1 + 1,
               { cache := mapDelete acc.2.cache h
                 tagIndex := removeTagAssociations h acc.2.tagIndex e.tags })
            | none => acc) acc).2.cache h = none) ∧
      (∀ h, h ∉ L → ∀ t,
        (h ∈ members (L.foldl
          (fun acc h =>
            match mapGet acc.2.cache h with
            | some e =>
              (acc.1 + 1,
               { cache := mapDelete acc.2.cache h
                 tagIndex := removeTagAssociations h acc.2.tagIndex e.tags })
            | none => acc) acc).2.tagIndex t ↔
         h ∈ members acc.2.tagIndex t)) ∧
      (∀ h ∈ L, ∀ t,
        h ∉ members (L.foldl
          (fun acc h =>
            match mapGet acc.2.cache h with
            | some e =>
              (acc.1 + 1,
               { cache := mapDelete acc.2.cache h
                 tagIndex := removeTagAssociations h acc.2.tagIndex e.tags })
            | none => acc) acc).2.tagIndex t) := by
  intro L
  induction L with
  | nil =>
    intro acc _ _ _
    refine ⟨by simp, fun h _ => rfl, fun h hh => absurd hh (List.not_mem_nil h),
      fun h _ t => Iff.rfl, fun h hh => absurd hh (List.not_mem_nil h)⟩
  | cons h0 L ih =>
    intro acc hI hnd hsome
    have hs0 : (mapGet acc.2.cache h0).isSome = true :=
      hsome h0 (List.mem_cons_self _ _)
    obtain ⟨e0, hg0⟩ : ∃ e, mapGet acc.2.cache h0 = some e := by
      cases hg : mapGet acc.2.cache h0 with
      | none => rw [hg] at hs0; cases hs0
      | some e => exact ⟨e, rfl⟩
    have hnd0 : h0 ∉ L := (List.nodup_cons.1 hnd).1
    have hndL : L.Nodup := (List.nodup_cons.1 hnd).2
    -- the state after processing h0
    have hstep : ∀ (x : String),
        mapGet (mapDelete acc.2.cache h0) x =
          if x = h0 then none else mapGet acc.2.cache x := mapGet_mapDelete _ _
    have hmem1 : ∀ t x, x ≠ h0 →
        (x ∈ members (removeTagAssociations h0 acc.2.tagIndex e0.tags) t ↔
         x ∈ members acc.2.tagIndex t) := by
      intro t x hx
      rw [mem_members_removeTagAssociations]
      constructor
      · rintro ⟨hm, _⟩; exact hm
      · intro hm; exact ⟨hm, fun _ => hx⟩
    have hmem0 : ∀ t,
        h0 ∉ members (removeTagAssociations h0 acc.2.tagIndex e0.tags) t := by
      intro t hmem
      rw [mem_members_removeTagAssociations] at hmem
      obtain ⟨hm, hcond⟩ := hmem
      obtain ⟨e2, hge2, hte2⟩ := hI.2.2.2.2.2 t h0 hm
      rw [hg0] at hge2
      injection hge2 with he
      subst he
      exact hcond hte2 rfl
    have hI1 : InvG { cache := mapDelete acc.2.cache h0
                      tagIndex := removeTagAssociations h0 acc.2.tagIndex e0.tags } :=
      invG_deleteEntry acc.2 h0 e0 hg0 hI
    have hsome1 : ∀ h ∈ L,
        (mapGet (mapDelete acc.2.cache h0) h).isSome = true := by
      intro h hh
      rw [hstep h, if_neg (by intro he; subst he; exact hnd0 hh)]
      exact hsome h (List.mem_cons_of_mem _ hh)
    have := ih (acc.1 + 1,
      { cache := mapDelete acc.2.cache h0
        tagIndex := removeTagAssociations h0 acc.2.tagIndex e0.tags })
      hI1 hndL hsome1
    obtain ⟨ihcount, ihother, ihgone, ihmem, ihnomem⟩ := this
    rw [List.foldl_cons]
    simp only [hg0]
    refine ⟨?_, ?_, ?_, ?_, ?_⟩
    · rw [ihcount]
      simp only [List.length_cons]
      omega
    · intro h hh
      have hh0 : h ≠ h0 := fun he => hh (he ▸ List.mem_cons_self _ _)
      have hhL : h ∉ L := fun hc => hh (List.mem_cons_of_mem _ hc)
      rw [ihother h hhL]
      simp only
      rw [hstep h, if_neg hh0]
    · intro h hh
      rcases List.mem_cons.1 hh with rfl | hh
      · rw [ihother h hnd0]
        simp only
        rw [hstep h, if_pos rfl]
      · exact ihgone h hh
    · intro h hh t
      have hh0 : h ≠ h0 := fun he => hh (he ▸ List.mem_cons_self _ _)
      have hhL : h ∉ L := fun hc => hh (List.mem_cons_of_mem _ hc)
      rw [ihmem h hhL t]
      simp only
      exact hmem1 t h hh0
    · intro h hh t
      rcases List.mem_cons.1 hh with rfl | hh
      · rw [ihmem h hnd0 t]
        simp only
        exact hmem0 t
      · exact ihnomem h hh t

/-- C4: `deleteByTag T` removes exactly the entries tagged `T` (any entry
not tagged `T` keeps its payload and all of its tag memberships), strips
each removed entry from every tag it held, and returns the number of
entries removed. -/
theorem deleteByTag_spec (s : CacheState) (hI : Inv s) (T : String) :
    ((FetchClientCache.deleteByTag s T).1 =
      (s.cache.filter
        (fun p => decide (T ∈ (p.2 : CacheEntry).tags))).length) ∧
    (∀ h e, mapGet s.cache h = some e → T ∈ e.tags →
      mapGet (FetchClientCache.deleteByTag s T).2.cache h = none ∧
      (∀ t, h ∉ members (FetchClientCache.deleteByTag s T).2.tagIndex t)) ∧
    (∀ h e, mapGet s.cache h = some e → T ∉ e.tags →
      mapGet (FetchClientCache.deleteByTag s T).2.cache h = some e ∧
      (∀ t, h ∈ members (FetchClientCache.deleteByTag s T).2.tagIndex t ↔
            h ∈ members s.tagIndex t)) := by
  rw [inv_iff_invG] at hI
  have hK := hI.1
  have hF := hI.2.2.2.2.1
  have hB := hI.2.2.2.2.2
  unfold FetchClientCache.deleteByTag
  cases hg : mapGet s.tagIndex T with
  | none =>
    have hnotag : ∀ h e, mapGet s.cache h = some e → T ∉ e.tags := by
      intro h e hge ht
      have := hF h e hge T ht
      unfold members at this
      rw [hg] at this
      simp at this
    simp only [hg]
    refine ⟨?_, ?_, ?_⟩
    · have hfilter : s.cache.filter
          (fun p => decide (T ∈ (p.2 : CacheEntry).tags)) = [] := by
        rw [List.filter_eq_nil_iff]
        intro p hp
        have hgp := mapGet_eq_some_of_mem hK (by rw [Prod.mk.eta]; exact hp)
        simp only [decide_eq_true_eq]
        exact hnotag p.1 p.2 hgp
      rw [hfilter]
      rfl
    · intro h e hge ht
      exact absurd ht (hnotag h e hge)
    · intro h e hge _
      refine ⟨hge, ?_⟩
      intro t
      trivial
  | some hashes =>
    have hmem : hashes = members s.tagIndex T := by
      simp [members, hg]
    have hnd : hashes.Nodup := by
      rw [hmem]
      exact hI.2.2.1 T
    have hsome : ∀ h ∈ hashes, (mapGet s.cache h).isSome = true := by
      intro h hh
      obtain ⟨e, hge, _⟩ := hB T h (hmem ▸ hh)
      rw [hge]
      rfl
    have hfold := deleteByTag_fold_spec hashes (0, s) hI hnd hsome
    obtain ⟨hcount, hother, hgone, hmemiff, hnomem⟩ := hfold
    have htagged : ∀ h e, mapGet s.cache h = some e →
        (T ∈ e.tags ↔ h ∈ hashes) := by
      intro h e hge
      constructor
      · intro ht
        rw [hmem]
        exact hF h e hge T ht
      · intro hh
        obtain ⟨e2, hge2, hte2⟩ := hB T h (hmem ▸ hh)
        rw [hge] at hge2
        injection hge2 with he
        rw [he]
        exact hte2
    simp only [hg]
    refine ⟨?_, ?_, ?_⟩
    · rw [hcount]
      have hkeys : ((s.cache.filter
          (fun p => decide (T ∈ (p.2 : CacheEntry).tags))).map Prod.fst).Nodup :=
        hK.sublist ((List.filter_sublist s.cache).map Prod.fst)
      have hext : ∀ a, a ∈ (s.cache.filter
          (fun p => decide (T ∈ (p.2 : CacheEntry).tags))).map Prod.fst ↔
          a ∈ hashes := by
        intro a
        constructor
        · intro ha
          obtain ⟨p, hp, hpa⟩ := List.mem_map.1 ha
          obtain ⟨hpmem, hptag⟩ := List.mem_filter.1 hp
          rw [decide_eq_true_eq] at hptag
          have hgp := mapGet_eq_some_of_mem hK (by rw [Prod.mk.eta]; exact hpmem)
          rw [← hpa]
          exact (htagged p.1 p.2 hgp).1 hptag
        · intro ha
          obtain ⟨e, hge, hte⟩ := hB T a (hmem ▸ ha)
          refine List.mem_map.2 ⟨(a, e), ?_, rfl⟩
          rw [List.mem_filter]
          exact ⟨mem_of_mapGet_eq_some hge, by rw [decide_eq_true_eq]; exact hte⟩
      have hperm := (List.perm_ext_iff_of_nodup hkeys hnd).2 hext
      have hlen := hperm.length_eq
      rw [List.length_map] at hlen
      omega
    · intro h e hge ht
      have hh : h ∈ hashes := (htagged h e hge).1 ht
      exact ⟨hgone h hh, hnomem h hh⟩
    · intro h e hge ht
      have hh : h ∉ hashes := fun hc => ht ((htagged h e hge).2 hc)
      refine ⟨?_, fun t => hmemiff h hh t⟩
      rw [hother h hh]
      exact hge

/-- C4 witness: two entries tagged `{users, session}` and `{posts, session}`;
`deleteByTag \"users\"` reports exactly the number of `users`-tagged
entries. -/
theorem deleteByTag_spec_witness :
    (FetchClientCache.deleteByTag demoCacheState "users").1 =
      (demoCacheState.cache.filter
        (fun p => decide ("users" ∈ (p.2 : CacheEntry).tags))).length := by
  exact (deleteByTag_spec demoCacheState (by decide) "users").1

/-- C5 counterexample: at the instant the configured duration has exactly
elapsed (`now = setTime + duration`), `get` still returns the cached
response, because the source's expiry test is strict
(`cacheEntry.expires < new Date()`).  The claim as stated — `get` returns
null "once the configured duration has elapsed" — fails at this instant. -/
theorem get_at_exact_expiry_returns_response :
    (FetchClientCache.get
      (FetchClientCache.set FetchClientCache.clear (.str "k") 7 (some 100)
        none 0)
      (.str "k") 100).1 = some 7 := by decide

/-- C5 amended: `set` then `get` at the same instant returns the stored
response, and once *strictly more* than the configured duration has
elapsed, `get` returns `none` and, as a side effect, deletes the entry and
all of its tag associations, so the key no longer appears in any tag's
membership. -/
theorem set_get_roundtrip_and_expiry (s : CacheState) (hI : Inv s)
    (key : CacheKey) (r : Nat) (d : Int) (tags : Option (List String))
    (now : Int) (hd : 0 ≤ d) :
    ((FetchClientCache.get (FetchClientCache.set s key r (some d) tags now)
        key now).1 = some r) ∧
    (∀ now2, now + d < now2 →
      (FetchClientCache.get (FetchClientCache.set s key r (some d) tags now)
          key now2).1 = none ∧
      mapGet (FetchClientCache.get
          (FetchClientCache.set s key r (some d) tags now) key now2).2.cache
        (getHash key) = none ∧
      (∀ t, getHash key ∉ members (FetchClientCache.get
          (FetchClientCache.set s key r (some d) tags now) key now2).2.tagIndex
        t)) := by
  rw [inv_iff_invG] at hI
  have hI1 : InvG (FetchClientCache.set s key r (some d) tags now) :=
    invG_set s key r (some d) tags now hI
  have hentry : mapGet
      (FetchClientCache.set s key r (some d) tags now).cache (getHash key) =
      some { key := key, tags := tags.getD [], lastAccess := now,
             expires := now + d, response := r } := by
    unfold FetchClientCache.set
    cases hold : mapGet s.cache (getHash key) with
    | some old =>
      simp only [hold]
      rw [mapGet_mapSet, if_pos rfl]
      rfl
    | none =>
      simp only [hold]
      rw [mapGet_mapSet, if_pos rfl]
      rfl
  constructor
  · unfold FetchClientCache.get
    simp only [hentry]
    rw [if_neg (show ¬ (now + d < now) by omega)]
  · intro now2 hnow2
    have hget : FetchClientCache.get
        (FetchClientCache.set s key r (some d) tags now) key now2 =
        (none,
         { cache := mapDelete
             (FetchClientCache.set s key r (some d) tags now).cache
             (getHash key)
           tagIndex := removeTagAssociations (getHash key)
             (FetchClientCache.set s key r (some d) tags now).tagIndex
             (tags.getD []) }) := by
      unfold FetchClientCache.get
      simp only [hentry]
      rw [if_pos (show now + d < now2 from hnow2)]
    rw [hget]
    refine ⟨rfl, ?_, ?_⟩
    · rw [mapGet_mapDelete, if_pos rfl]
    · intro t hmem
      rw [mem_members_removeTagAssociations] at hmem
      obtain ⟨hmem, hcond⟩ := hmem
      by_cases ht : t ∈ tags.getD []
      · exact hcond ht rfl
      · obtain ⟨e2, hge2, hte2⟩ := hI1.2.2.2.2.2 t (getHash key) hmem
        rw [hentry] at hge2
        injection hge2 with he
        subst he
        exact ht hte2

/-- C5 amended witness. -/
theorem set_get_roundtrip_and_expiry_witness :
    ((FetchClientCache.get
        (FetchClientCache.set FetchClientCache.clear (.str "k") 7 (some 100)
          (some ["t"]) 0) (.str "k") 0).1 = some 7) ∧
    (FetchClientCache.get
        (FetchClientCache.set FetchClientCache.clear (.str "k") 7 (some 100)
          (some ["t"]) 0) (.str "k") 101).1 = none := by
  have h := set_get_roundtrip_and_expiry FetchClientCache.clear (by decide)
    (.str "k") 7 100 (some ["t"]) 0 (by decide)
  exact ⟨h.1, (h.2 101 (by decide)).1⟩

/-- C10: an expired-but-unread entry is still visible to `has` and
`getEntryTags` (they ignore the expiry timestamp); only a `get` on the key
actually removes the expired entry and its tag associations as a side
effect of the read. -/
theorem expiry_observable_only_through_get (s : CacheState) (hI : Inv s)
    (key : CacheKey) (e : CacheEntry) (now : Int)
    (hentry : mapGet s.cache (getHash key) = some e)
    (hexp : e.expires < now) :
    FetchClientCache.has s key = true ∧
    FetchClientCache.getEntryTags s key = e.tags ∧
    (FetchClientCache.get s key now).1 = none ∧
    mapGet (FetchClientCache.get s key now).2.cache (getHash key) = none ∧
    (∀ t, getHash key ∉
      members (FetchClientCache.get s key now).2.tagIndex t) := by
  rw [inv_iff_invG] at hI
  have hget : FetchClientCache.get s key now =
      (none,
       { cache := mapDelete s.cache (getHash key)
         tagIndex := removeTagAssociations (getHash key) s.tagIndex e.tags }) := by
    unfold FetchClientCache.get
    simp only [hentry]
    rw [if_pos hexp]
  refine ⟨?_, ?_, ?_, ?_, ?_⟩
  · unfold FetchClientCache.has
    rw [hentry]
    rfl
  · unfold FetchClientCache.getEntryTags
    rw [hentry]
    rfl
  · rw [hget]
  · rw [hget]
    rw [mapGet_mapDelete, if_pos rfl]
  · intro t hmem
    rw [hget] at hmem
    rw [mem_members_removeTagAssociations] at hmem
    obtain ⟨hmem, hcond⟩ := hmem
    by_cases ht : t ∈ e.tags
    · exact hcond ht rfl
    · obtain ⟨e2, hge2, hte2⟩ := hI.2.2.2.2.2 t (getHash key) hmem
      rw [hentry] at hge2
      injection hge2 with he
      subst he
      exact ht hte2

/-- C10 witness: `demoCacheState`'s entries expire at 100; at time 200 the
`users:1` entry is expired but unread. -/
theorem expiry_observable_only_through_get_witness :
    FetchClientCache.has demoCacheState (.str "users:1") = true ∧
    FetchClientCache.getEntryTags demoCacheState (.str "users:1") =
      demoEntryUsers.tags ∧
    (FetchClientCache.get demoCacheState (.str "users:1") 200).1 = none := by
  have h := expiry_observable_only_through_get demoCacheState (by decide)
    (.str "users:1") demoEntryUsers 200 (by decide) (by decide)
  exact ⟨h.1, h.2.1, h.2.2.1⟩

end FC
